import Mathlib

set_option maxRecDepth 4000

/- Verification of the Mangatan dictionary deinflection-and-lookup engine.

   Part 1 models src/crates/yomitan-server/src/deinflector/transformer.rs.
   Text is modelled as List Char (a Rust String is a sequence of Unicode
   scalar values); u32 condition bitmasks are modelled as Nat (flags are
   single bits below 2^32 combined with bitwise or, so no wraparound can
   occur).  The worklist loop of transform_with_trace is not structurally
   terminating in the source (termination relies on the rule data), so it
   is modelled with explicit fuel: `none` means the loop had not finished
   within the given number of iterations. -/

/-- Rust: fn is_arabic_letter(c: char) -> bool. -/
def is_arabic_letter (c : Char) : Bool :=
  let u := c.toNat
  (0x0620 ≤ u && u ≤ 0x065F)
    || (0x066E ≤ u && u ≤ 0x06D3)
    || u == 0x06D5
    || (0x06EE ≤ u && u ≤ 0x06EF)
    || (0x06FA ≤ u && u ≤ 0x06FC)
    || u == 0x06FF

/-- str::strip_suffix for List Char. -/
def stripSuffixL (text suf : List Char) : Option (List Char) :=
  if suf.isSuffixOf text then some (text.take (text.length - suf.length)) else none

/-- str::strip_prefix for List Char. -/
def stripPrefixL (text pre : List Char) : Option (List Char) :=
  if pre.isPrefixOf text then some (text.drop pre.length) else none

/-- str::split_whitespace for List Char (split on whitespace, dropping
empty fragments); `acc` holds the current fragment reversed. -/
def splitWsAux : List Char → List Char → List (List Char)
  | [], acc => if acc.isEmpty then [] else [acc.reverse]
  | c :: cs, acc =>
    if c.isWhitespace then
      if acc.isEmpty then splitWsAux cs [] else acc.reverse :: splitWsAux cs []
    else splitWsAux cs (c :: acc)

def splitWs (text : List Char) : List (List Char) := splitWsAux text []

/-- Rust: fn english_phrasal_particles() (transformer.rs). -/
def english_phrasal_particles : List String :=
  ["aboard", "about", "above", "across", "ahead", "alongside", "apart",
   "around", "aside", "astray", "away", "back", "before", "behind", "below",
   "beneath", "besides", "between", "beyond", "by", "close", "down", "east",
   "west", "north", "south", "eastward", "westward", "northward",
   "southward", "forward", "backward", "backwards", "forwards", "home",
   "in", "inside", "instead", "near", "off", "on", "opposite", "out",
   "outside", "over", "overhead", "past", "round", "since", "through",
   "throughout", "together", "under", "underneath", "up", "within",
   "without"]

/-- Rust: fn english_phrasal_prepositions() (transformer.rs). -/
def english_phrasal_prepositions : List String :=
  ["aback", "about", "above", "across", "after", "against", "ahead",
   "along", "among", "apart", "around", "as", "aside", "at", "away",
   "back", "before", "behind", "below", "between", "beyond", "by", "down",
   "even", "for", "forth", "forward", "from", "in", "into", "of", "off",
   "on", "onto", "open", "out", "over", "past", "round", "through", "to",
   "together", "toward", "towards", "under", "up", "upon", "way", "with",
   "without"]

/-- Rust: fn english_phrasal_word_set() — particles chained with
prepositions (membership in the set equals membership in the chain). -/
def english_phrasal_word_set : List String :=
  english_phrasal_particles ++ english_phrasal_prepositions

/-- Rust: fn english_phrasal_suffix(text, inflected) (transformer.rs). -/
def english_phrasal_suffix (text inflected : List Char) :
    Option (List Char × List Char) :=
  match splitWs text with
  | [first, second] =>
    if english_phrasal_word_set.contains (String.mk second) then
      match stripSuffixL first inflected with
      | some stem => some (stem, second)
      | none => none
    else none
  | _ => none

/-- Rust: fn english_phrasal_interposed_object(text) (transformer.rs). -/
def english_phrasal_interposed_object (text : List Char) :
    Option (List Char) :=
  let words := splitWs text
  if words.length < 3 then none
  else
    match words.getLast? with
    | none => none
    | some particle =>
      if !(english_phrasal_particles.contains (String.mk particle)) then none
      else if ((words.drop 1).dropLast).any
          (fun w => english_phrasal_word_set.contains (String.mk w)) then none
      else
        match words.head? with
        | some w0 => some (w0 ++ [' '] ++ particle)
        | none => none

/-- Rust: fn matches_affix (transformer.rs). -/
def matches_affix (text inflectedPre inflectedSuf : List Char)
    (initialDisallow finalDisallow : Option Char)
    (requireArabicLetters : Bool) : Bool :=
  match stripPrefixL text inflectedPre with
  | none => false
  | some strippedPre =>
    match stripSuffixL strippedPre inflectedSuf with
    | none => false
    | some middle =>
      if requireArabicLetters && middle.isEmpty then false
      else if requireArabicLetters && !(middle.all is_arabic_letter) then false
      else if (match initialDisallow, middle.head? with
               | some d, some m => m == d
               | _, _ => false) then false
      else if (match finalDisallow, middle.getLast? with
               | some d, some m => m == d
               | _, _ => false) then false
      else true

/-- Rust: fn deinflect_affix (transformer.rs). -/
def deinflect_affix (text inflectedPre deinflectedPre inflectedSuf
    deinflectedSuf : List Char) : Option (List Char) :=
  match stripPrefixL text inflectedPre with
  | none => none
  | some strippedPre =>
    match stripSuffixL strippedPre inflectedSuf with
    | none => none
    | some middle => some (deinflectedPre ++ middle ++ deinflectedSuf)

/-- Rust: enum RuleKind (transformer.rs). -/
inductive RuleKind where
  | suffixRule (inflected deinflected : List Char)
  | prefixRule (inflected deinflected : List Char)
  | wholeWord (inflected deinflected : List Char)
  | affix (inflectedPre deinflectedPre inflectedSuf deinflectedSuf : List Char)
      (initialDisallow finalDisallow : Option Char)
      (requireArabicLetters : Bool)
  | englishPhrasalInterposedObject
  | englishPhrasalSuffix (inflected deinflected : List Char)
deriving DecidableEq

/-- Rust: RuleKind::is_inflected (transformer.rs). -/
def RuleKind.is_inflected (k : RuleKind) (text : List Char) : Bool :=
  match k with
  | .suffixRule inflected _ => inflected.isSuffixOf text
  | .prefixRule inflected _ => inflected.isPrefixOf text
  | .wholeWord inflected _ => text == inflected
  | .affix ip _ isuf _ idis fdis reqAr => matches_affix text ip isuf idis fdis reqAr
  | .englishPhrasalInterposedObject => (english_phrasal_interposed_object text).isSome
  | .englishPhrasalSuffix inflected _ => (english_phrasal_suffix text inflected).isSome

/-- Rust: RuleKind::deinflect (transformer.rs). -/
def RuleKind.deinflect (k : RuleKind) (text : List Char) : Option (List Char) :=
  match k with
  | .suffixRule inflected deinflected =>
    match stripSuffixL text inflected with
    | some stem => some (stem ++ deinflected)
    | none => none
  | .prefixRule inflected deinflected =>
    match stripPrefixL text inflected with
    | some stem => some (deinflected ++ stem)
    | none => none
  | .wholeWord inflected deinflected =>
    if text == inflected then some deinflected else none
  | .affix ip dp isuf dsuf _ _ _ => deinflect_affix text ip dp isuf dsuf
  | .englishPhrasalInterposedObject => english_phrasal_interposed_object text
  | .englishPhrasalSuffix inflected deinflected =>
    match english_phrasal_suffix text inflected with
    | some (stem, particle) => some (stem ++ deinflected ++ [' '] ++ particle)
    | none => none

/-- Rust: struct Rule (transformer.rs). -/
structure Rule where
  transform_id : String
  rule_index : Nat
  conditions_in : Nat
  conditions_out : Nat
  kind : RuleKind
deriving DecidableEq

/-- Rust: struct Transform (transformer.rs). -/
structure Transform where
  id : String
  rules : List Rule
deriving DecidableEq

/-- Rust: struct LanguageTransformer — the condition_flags_map is only
consulted by the compiler front end, not by the transform loop, so the
engine model carries the compiled transforms. -/
structure LanguageTransformer where
  transforms : List Transform
deriving DecidableEq

/-- Rust: struct TraceFrame (the internal frames, carrying the text the
rule was applied to; transformer.rs). -/
structure TraceFrame where
  transform_id : String
  rule_index : Nat
  text : List Char
deriving DecidableEq

/-- Rust: struct TraceFrameInfo (the consumer-visible frame). -/
structure TraceFrameInfo where
  transform_id : String
deriving DecidableEq

/-- Rust: struct TransformedTextTrace. -/
structure TransformedTextTrace where
  text : List Char
  conditions : Nat
  trace : List TraceFrameInfo
deriving DecidableEq

/-- Rust: struct TransformedText. -/
structure TransformedText where
  text : List Char
  conditions : Nat
deriving DecidableEq

/-- Rust: fn conditions_match(current, next) (transformer.rs). -/
def conditions_match (current next : Nat) : Bool :=
  current == 0 || (current &&& next) != 0

/-- One entry of the worklist: the Rust code keeps `results` (consumer
view) and `traces` (full frames) in two parallel vectors; the model pairs
the text/conditions with the full frames and projects the consumer view
at the end. -/
structure WorkItem where
  text : List Char
  conditions : Nat
  trace : List TraceFrame
deriving DecidableEq

/-- The body of the two inner `for` loops of transform_with_trace: all
worklist items the processing of `cur` appends, in rule-scan order. -/
def stepItem (lt : LanguageTransformer) (cur : WorkItem) : List WorkItem :=
  lt.transforms.flatMap (fun t =>
    t.rules.filterMap (fun rule =>
      if !(conditions_match cur.conditions rule.conditions_in) then none
      else if !(rule.kind.is_inflected cur.text) then none
      else if cur.trace.any (fun frame =>
          frame.transform_id == rule.transform_id
            && frame.rule_index == rule.rule_index
            && frame.text == cur.text) then none
      else
        match rule.kind.deinflect cur.text with
        | some deinflected =>
          some ⟨deinflected, rule.conditions_out,
            ⟨rule.transform_id, rule.rule_index, cur.text⟩ :: cur.trace⟩
        | none => none))

/-- The `while i < results.len()` loop of transform_with_trace: `acc`
holds the processed items in reverse, `pending` the unprocessed tail of
the growing vector.  Fuel bounds the number of iterations; the Rust loop
has no such bound and diverges on rule sets the fuel-out case `none`
stands for. -/
def runWork (lt : LanguageTransformer) :
    Nat → List WorkItem → List WorkItem → Option (List WorkItem)
  | _, acc, [] => some acc.reverse
  | 0, _, _ :: _ => none
  | fuel + 1, acc, cur :: pending =>
    runWork lt fuel (cur :: acc) (pending ++ stepItem lt cur)

def seedItem (source : List Char) : WorkItem := ⟨source, 0, []⟩

def WorkItem.toTrace (item : WorkItem) : TransformedTextTrace :=
  ⟨item.text, item.conditions, item.trace.map (fun f => ⟨f.transform_id⟩)⟩

/-- Rust: LanguageTransformer::transform_with_trace (fuel-indexed). -/
def transform_with_trace (lt : LanguageTransformer) (source : List Char)
    (fuel : Nat) : Option (List TransformedTextTrace) :=
  (runWork lt fuel [] [seedItem source]).map (·.map WorkItem.toTrace)

/-- Rust: LanguageTransformer::transform (projects the traces away). -/
def transform (lt : LanguageTransformer) (source : List Char)
    (fuel : Nat) : Option (List TransformedText) :=
  (transform_with_trace lt source fuel).map
    (·.map (fun item => ⟨item.text, item.conditions⟩))

-- sanity check of the engine on the worked example of the spec shape:
-- two chained suffix rules applied to "ab".
def exLT : LanguageTransformer :=
  ⟨[⟨"t1", [⟨"t1", 0, 0, 0, .suffixRule ['b'] []⟩]⟩,
    ⟨"t2", [⟨"t2", 0, 0, 0, .suffixRule ['a'] []⟩]⟩]⟩

example :
    transform_with_trace exLT ['a', 'b'] 4 =
      some [⟨['a', 'b'], 0, []⟩,
            ⟨['a'], 0, [⟨"t1"⟩]⟩,
            ⟨[], 0, [⟨"t2"⟩, ⟨"t1"⟩]⟩] := by decide

/- Generic worklist lemmas. -/

/-- Any property preserved by stepItem and true of acc and pending holds
of every item of a finished run. -/
theorem runWork_invariant (lt : LanguageTransformer) (P : WorkItem → Prop)
    (hstep : ∀ cur, P cur → ∀ x ∈ stepItem lt cur, P x) :
    ∀ (fuel : Nat) (acc pending out : List WorkItem),
      runWork lt fuel acc pending = some out →
      (∀ x ∈ acc, P x) → (∀ x ∈ pending, P x) → ∀ x ∈ out, P x := by
  intro fuel
  induction fuel with
  | zero =>
    intro acc pending out h hacc hpend x hx
    cases pending with
    | nil =>
      simp only [runWork, Option.some.injEq] at h
      subst h; exact hacc x (List.mem_reverse.mp hx)
    | cons cur rest => simp [runWork] at h
  | succ n ih =>
    intro acc pending out h hacc hpend x hx
    cases pending with
    | nil =>
      simp only [runWork, Option.some.injEq] at h
      subst h; exact hacc x (List.mem_reverse.mp hx)
    | cons cur rest =>
      simp only [runWork] at h
      refine ih (cur :: acc) (rest ++ stepItem lt cur) out h ?_ ?_ x hx
      · intro y hy
        rcases List.mem_cons.mp hy with hy | hy
        · subst hy; exact hpend y (List.mem_cons_self _ _)
        · exact hacc y hy
      · intro y hy
        rcases List.mem_append.mp hy with hy | hy
        · exact hpend y (List.mem_cons_of_mem _ hy)
        · exact hstep cur (hpend cur (List.mem_cons_self _ _)) y hy

/-- Every item of acc or pending appears in the final results. -/
theorem runWork_mem (lt : LanguageTransformer) :
    ∀ (fuel : Nat) (acc pending out : List WorkItem),
      runWork lt fuel acc pending = some out →
      ∀ x, x ∈ acc ∨ x ∈ pending → x ∈ out := by
  intro fuel
  induction fuel with
  | zero =>
    intro acc pending out h x hx
    cases pending with
    | nil =>
      simp only [runWork, Option.some.injEq] at h
      subst h
      rcases hx with hx | hx
      · exact List.mem_reverse.mpr hx
      · simp at hx
    | cons cur rest => simp [runWork] at h
  | succ n ih =>
    intro acc pending out h x hx
    cases pending with
    | nil =>
      simp only [runWork, Option.some.injEq] at h
      subst h
      rcases hx with hx | hx
      · exact List.mem_reverse.mpr hx
      · simp at hx
    | cons cur rest =>
      simp only [runWork] at h
      refine ih (cur :: acc) (rest ++ stepItem lt cur) out h x ?_
      rcases hx with hx | hx
      · exact Or.inl (List.mem_cons_of_mem _ hx)
      · rcases List.mem_cons.mp hx with hx | hx
        · exact Or.inl (hx ▸ List.mem_cons_self _ _)
        · exact Or.inr (List.mem_append_left _ hx)

/-- Unpacks membership in stepItem: x arises from a transform, a rule,
the four guards, and the deinflection. -/
theorem mem_stepItem (lt : LanguageTransformer) (cur x : WorkItem)
    (hx : x ∈ stepItem lt cur) :
    ∃ t ∈ lt.transforms, ∃ rule ∈ t.rules,
      conditions_match cur.conditions rule.conditions_in = true
      ∧ rule.kind.is_inflected cur.text = true
      ∧ (cur.trace.any (fun frame =>
            frame.transform_id == rule.transform_id
              && frame.rule_index == rule.rule_index
              && frame.text == cur.text)) = false
      ∧ ∃ deinflected, rule.kind.deinflect cur.text = some deinflected
          ∧ x = ⟨deinflected, rule.conditions_out,
              ⟨rule.transform_id, rule.rule_index, cur.text⟩ :: cur.trace⟩ := by
  simp only [stepItem, List.mem_flatMap, List.mem_filterMap] at hx
  obtain ⟨t, ht, rule, hr, heq⟩ := hx
  refine ⟨t, ht, rule, hr, ?_⟩
  cases h1 : conditions_match cur.conditions rule.conditions_in with
  | false => simp [h1] at heq
  | true =>
  cases h2 : rule.kind.is_inflected cur.text with
  | false => simp [h1, h2] at heq
  | true =>
  cases h3 : cur.trace.any (fun frame =>
      frame.transform_id == rule.transform_id
        && frame.rule_index == rule.rule_index
        && frame.text == cur.text) with
  | true => simp [h1, h2, h3] at heq
  | false =>
  simp only [h1, h2, h3, Bool.not_true, Bool.not_false, Bool.false_eq_true,
    Bool.true_eq_false, if_true, if_false, ite_false, ite_true] at heq
  cases hd : RuleKind.deinflect rule.kind cur.text with
  | none => rw [hd] at heq; cases heq
  | some d =>
    rw [hd] at heq
    exact ⟨rfl, rfl, rfl, d, rfl, (Option.some.inj heq).symm⟩

/- Claim C3: the condition gate. -/

-- transformer with a rule (tb) whose conditions_in is 0, reachable only
-- through a state with conditions 1 produced by ta.
def c3LT : LanguageTransformer :=
  ⟨[⟨"ta", [⟨"ta", 0, 0, 1, .suffixRule ['a'] []⟩]⟩,
    ⟨"tb", [⟨"tb", 0, 0, 0, .suffixRule ['b'] ['z']⟩]⟩]⟩

/-- C3 counterexample: a rule whose conditions_in bitmask is 0 is NOT a
wildcard: a current state 1 fails the gate against conditions_in 0, and in
a run where the item ⟨"b", conditions 1⟩ is reached, the rule tb
(conditions_in = 0, pattern matching "b", producing "z") never fires — no
result with text "z" exists. -/
theorem c3_counterexample :
    conditions_match 1 0 = false
    ∧ transform_with_trace c3LT ['b', 'a'] 4 =
        some [⟨['b', 'a'], 0, []⟩, ⟨['b'], 1, [⟨"ta"⟩]⟩] := by
  constructor
  · decide
  · decide

/-- C3 (amended): an item whose current condition bitmask is 0 matches
every rule's conditions_in regardless of value; a nonzero current bitmask
passes the gate exactly when it intersects conditions_in (bitwise AND
nonzero) — so a rule whose conditions_in is 0 is matched only by items
whose current bitmask is 0. -/
theorem c3_condition_gate :
    (∀ next, conditions_match 0 next = true)
    ∧ (∀ current next, current ≠ 0 →
        (conditions_match current next = true ↔ current &&& next ≠ 0)) := by
  refine ⟨fun next => rfl, fun current next hc => ?_⟩
  simp [conditions_match, hc]

/-- Witness for c3_condition_gate at concrete inputs. -/
theorem c3_condition_gate_witness :
    conditions_match 0 7 = true
    ∧ (conditions_match 6 4 = true ↔ 6 &&& 4 ≠ 0) :=
  ⟨c3_condition_gate.1 7, c3_condition_gate.2 6 4 (by decide)⟩

/- Claim C5: the unmodified source text is always among the outputs. -/

/-- C5: for every LanguageTransformer and every input text, whenever the
worklist loop finishes, the unmodified source text is among the outputs of
transform_with_trace with condition bitmask 0 and an empty trace, and
among the outputs of transform with condition bitmask 0. -/
theorem c5_source_text_present (lt : LanguageTransformer) (source : List Char)
    (fuel : Nat) :
    (∀ out, transform_with_trace lt source fuel = some out →
       (⟨source, 0, []⟩ : TransformedTextTrace) ∈ out)
    ∧ (∀ out, transform lt source fuel = some out →
       (⟨source, 0⟩ : TransformedText) ∈ out) := by
  have hseed : ∀ items, runWork lt fuel [] [seedItem source] = some items →
      seedItem source ∈ items := by
    intro items h
    exact runWork_mem lt fuel [] [seedItem source] items h _
      (Or.inr (List.mem_singleton.mpr rfl))
  have h1 : ∀ out, transform_with_trace lt source fuel = some out →
      (⟨source, 0, []⟩ : TransformedTextTrace) ∈ out := by
    intro out h
    unfold transform_with_trace at h
    cases hrw : runWork lt fuel [] [seedItem source] with
    | none => rw [hrw] at h; cases h
    | some items =>
      rw [hrw] at h
      cases h
      exact List.mem_map_of_mem _ (hseed items hrw)
  refine ⟨h1, ?_⟩
  intro out h
  unfold transform at h
  cases htw : transform_with_trace lt source fuel with
  | none => rw [htw] at h; cases h
  | some l =>
    rw [htw] at h
    cases h
    exact List.mem_map_of_mem _ (h1 l htw)

/-- Witness for c5_source_text_present on a concrete transformer run. -/
theorem c5_witness :
    (⟨['a', 'b'], 0, []⟩ : TransformedTextTrace) ∈
      [(⟨['a', 'b'], 0, []⟩ : TransformedTextTrace),
       ⟨['a'], 0, [⟨"t1"⟩]⟩, ⟨[], 0, [⟨"t2"⟩, ⟨"t1"⟩]⟩] :=
  (c5_source_text_present exLT ['a', 'b'] 4).1 _ (by decide)

/- Claim C2: order of the trace frames. -/

/-- Some rule of the transformer carries this frame's identifiers and
deinflects the frame's recorded text into `result`. -/
def ruleFires (lt : LanguageTransformer) (f : TraceFrame)
    (result : List Char) : Prop :=
  ∃ t ∈ lt.transforms, ∃ r ∈ t.rules,
    r.transform_id = f.transform_id ∧ r.rule_index = f.rule_index ∧
      r.kind.deinflect f.text = some result

/-- The head frame of the trace is the rule application that produced the
item's final text (or the trace is empty and the text is the source). -/
def traceHeadOk (lt : LanguageTransformer) (source : List Char)
    (item : WorkItem) : Prop :=
  match item.trace with
  | [] => item.text = source
  | f :: _ => ruleFires lt f item.text

/-- The trace is stored newest-first: the head frame produced the item's
text, every frame produced the text recorded by the frame before it, and
the last (oldest) frame consumed the original source text. -/
def traceNewestFirst (lt : LanguageTransformer) (source : List Char)
    (item : WorkItem) : Prop :=
  traceHeadOk lt source item
    ∧ List.Chain' (fun a b => ruleFires lt b a.text) item.trace
    ∧ ∀ g, item.trace.getLast? = some g → g.text = source

theorem stepItem_traceNewestFirst (lt : LanguageTransformer)
    (source : List Char) (cur : WorkItem)
    (hcur : traceNewestFirst lt source cur) :
    ∀ x ∈ stepItem lt cur, traceNewestFirst lt source x := by
  intro x hx
  obtain ⟨t, ht, rule, hr, h1, h2, h3, d, hd, hxeq⟩ := mem_stepItem lt cur x hx
  subst hxeq
  obtain ⟨hhead, hchain, hlast⟩ := hcur
  cases htr : cur.trace with
  | nil =>
    simp only [traceHeadOk, htr] at hhead
    refine ⟨⟨t, ht, rule, hr, rfl, rfl, hd⟩, ?_, ?_⟩
    · exact List.chain'_singleton _
    · intro g hg
      simp only [List.getLast?_singleton, Option.some.injEq] at hg
      subst hg
      exact hhead
  | cons g0 rest =>
    simp only [traceHeadOk, htr] at hhead
    refine ⟨⟨t, ht, rule, hr, rfl, rfl, hd⟩, ?_, ?_⟩
    · exact List.chain'_cons.mpr ⟨hhead, htr ▸ hchain⟩
    · intro g hg
      simp only [List.getLast?_cons_cons] at hg
      exact hlast g (by rw [htr]; exact hg)

/-- C2 (amended): the trace of every returned item lists its frames
newest-first — the most recently applied rule first and the earliest
applied rule (the one that consumed the original source text) last. -/
theorem c2_trace_order (lt : LanguageTransformer) (source : List Char)
    (fuel : Nat) (out : List WorkItem)
    (h : runWork lt fuel [] [seedItem source] = some out) :
    ∀ item ∈ out, traceNewestFirst lt source item := by
  refine runWork_invariant lt (traceNewestFirst lt source)
    (fun cur hcur => stepItem_traceNewestFirst lt source cur hcur)
    fuel [] [seedItem source] out h (by simp) ?_
  intro x hx
  rw [List.mem_singleton] at hx
  subst hx
  exact ⟨rfl, List.chain'_nil, fun g hg => by cases hg⟩

/-- C2 counterexample: two chained suffix rules applied to "ab" — t1
fires first (earliest), t2 second; the returned trace reads [t2, t1],
most recent first, not application order [t1, t2]. -/
theorem c2_counterexample :
    transform_with_trace exLT ['a', 'b'] 4 =
      some [⟨['a', 'b'], 0, []⟩,
            ⟨['a'], 0, [⟨"t1"⟩]⟩,
            ⟨[], 0, [⟨"t2"⟩, ⟨"t1"⟩]⟩]
    ∧ ([⟨"t2"⟩, ⟨"t1"⟩] : List TraceFrameInfo) ≠ [⟨"t1"⟩, ⟨"t2"⟩] := by
  constructor
  · decide
  · decide

/-- Witness for c2_trace_order on the concrete two-rule run. -/
theorem c2_witness :
    traceNewestFirst exLT ['a', 'b']
      ⟨[], 0, [⟨"t2", 0, ['a']⟩, ⟨"t1", 0, ['a', 'b']⟩]⟩ :=
  c2_trace_order exLT ['a', 'b'] 4
    [⟨['a', 'b'], 0, []⟩,
     ⟨['a'], 0, [⟨"t1", 0, ['a', 'b']⟩]⟩,
     ⟨[], 0, [⟨"t2", 0, ['a']⟩, ⟨"t1", 0, ['a', 'b']⟩]⟩]
    (by decide) _ (by decide)

/- Claim C4: the loop guard. -/

def tripleOfFrame (f : TraceFrame) : String × Nat × List Char :=
  (f.transform_id, f.rule_index, f.text)

theorem stepItem_nodup (lt : LanguageTransformer) (cur : WorkItem)
    (hcur : (cur.trace.map tripleOfFrame).Nodup) :
    ∀ x ∈ stepItem lt cur, (x.trace.map tripleOfFrame).Nodup := by
  intro x hx
  obtain ⟨t, ht, rule, hr, h1, h2, h3, d, hd, hxeq⟩ := mem_stepItem lt cur x hx
  subst hxeq
  simp only [List.map_cons, List.nodup_cons]
  refine ⟨?_, hcur⟩
  intro hmem
  rw [List.mem_map] at hmem
  obtain ⟨frame, hf, hfe⟩ := hmem
  simp only [tripleOfFrame, Prod.mk.injEq] at hfe
  obtain ⟨e1, e2, e3⟩ := hfe
  rw [List.any_eq_false] at h3
  exact h3 frame hf (by simp [e1, e2, e3])

-- pathological rule set of the spec's termination test: the rule leaves
-- the text unchanged ("a" -> "a") and its conditions_out (1) re-satisfies
-- its own conditions_in (1).
def loopLT : LanguageTransformer :=
  ⟨[⟨"loop", [⟨"loop", 0, 1, 1, .suffixRule ['a'] ['a']⟩]⟩]⟩

/-- C4: in every returned item, no (transform_id, rule_index, text)
triple occurs twice in the trace — the loop guard never lets the same
rule apply to the same text twice within one derivation — and the
pathological self-re-enabling text-preserving rule set terminates: the
run returns (within 2 worklist steps) instead of growing forever. -/
theorem c4_loop_guard :
    (∀ (lt : LanguageTransformer) (source : List Char) (fuel : Nat)
        (out : List WorkItem),
        runWork lt fuel [] [seedItem source] = some out →
        ∀ item ∈ out, (item.trace.map tripleOfFrame).Nodup)
    ∧ runWork loopLT 2 [] [seedItem ['b', 'a']] =
        some [⟨['b', 'a'], 0, []⟩,
              ⟨['b', 'a'], 1, [⟨"loop", 0, ['b', 'a']⟩]⟩] := by
  constructor
  · intro lt source fuel out h
    refine runWork_invariant lt (fun it => (it.trace.map tripleOfFrame).Nodup)
      (fun cur hcur => stepItem_nodup lt cur hcur) fuel [] [seedItem source]
      out h (by simp) ?_
    intro x hx
    rw [List.mem_singleton] at hx
    subst hx
    simp [seedItem]
  · decide

/-- Witness for c4_loop_guard's universally quantified part at the
pathological run. -/
theorem c4_witness :
    (([⟨"loop", 0, ['b', 'a']⟩] : List TraceFrame).map tripleOfFrame).Nodup :=
  c4_loop_guard.1 loopLT ['b', 'a'] 2
    [⟨['b', 'a'], 0, []⟩, ⟨['b', 'a'], 1, [⟨"loop", 0, ['b', 'a']⟩]⟩]
    (by decide) ⟨['b', 'a'], 1, [⟨"loop", 0, ['b', 'a']⟩]⟩ (by decide)

/- Part 2: Korean Hangul decomposition/recomposition from
   src/crates/yomitan-server/src/lookup.rs (decompose_hangul,
   compose_hangul and their helpers). -/

/-- Rust: the cho_map array of decompose_hangul and the string scanned by
is_cho/get_cho_idx (same 19 characters in the same order). -/
def cho_map : List Char :=
  ['ㄱ', 'ㄲ', 'ㄴ', 'ㄷ', 'ㄸ', 'ㄹ', 'ㅁ', 'ㅂ', 'ㅃ', 'ㅅ', 'ㅆ', 'ㅇ',
   'ㅈ', 'ㅉ', 'ㅊ', 'ㅋ', 'ㅌ', 'ㅍ', 'ㅎ']

/-- Rust: the jung_map array and the string scanned by
is_jung/get_jung_idx (same 21 characters in the same order). -/
def jung_map : List Char :=
  ['ㅏ', 'ㅐ', 'ㅑ', 'ㅒ', 'ㅓ', 'ㅔ', 'ㅕ', 'ㅖ', 'ㅗ', 'ㅘ', 'ㅙ', 'ㅚ',
   'ㅛ', 'ㅜ', 'ㅝ', 'ㅞ', 'ㅟ', 'ㅠ', 'ㅡ', 'ㅢ', 'ㅣ']

/-- Rust: the 27 trailing consonants scanned by is_jong/get_jong_idx
(jong_map without its leading NUL placeholder). -/
def jong_set : List Char :=
  ['ㄱ', 'ㄲ', 'ㄳ', 'ㄴ', 'ㄵ', 'ㄶ', 'ㄷ', 'ㄹ', 'ㄺ', 'ㄻ', 'ㄼ', 'ㄽ',
   'ㄾ', 'ㄿ', 'ㅀ', 'ㅁ', 'ㅂ', 'ㅄ', 'ㅅ', 'ㅆ', 'ㅇ', 'ㅈ', 'ㅊ', 'ㅋ',
   'ㅌ', 'ㅍ', 'ㅎ']

/-- Rust: the jong_map array of decompose_hangul ('\0' at index 0). -/
def jong_map : List Char := '\x00' :: jong_set

/-- Rust: fn is_cho (lookup.rs). -/
def is_cho (c : Char) : Bool := cho_map.contains c

/-- Rust: fn is_jung (lookup.rs). -/
def is_jung (c : Char) : Bool := jung_map.contains c

/-- Rust: fn is_jong (lookup.rs). -/
def is_jong (c : Char) : Bool := jong_set.contains c

/-- Rust: fn get_cho_idx (position in the cho string, 0 if absent). -/
def get_cho_idx (c : Char) : Nat := (cho_map.findIdx? (· == c)).getD 0

/-- Rust: fn get_jung_idx (position in the jung string, 0 if absent). -/
def get_jung_idx (c : Char) : Nat := (jung_map.findIdx? (· == c)).getD 0

/-- Rust: fn get_jong_idx (position in the jong string plus 1, 0 if
absent). -/
def get_jong_idx (c : Char) : Nat :=
  match jong_set.findIdx? (· == c) with
  | some p => p + 1
  | none => 0

/-- Rust: fn combine_jong (lookup.rs). -/
def combine_jong (c1 c2 : Char) : Option Char :=
  if c1 = 'ㄱ' ∧ c2 = 'ㅅ' then some 'ㄳ'
  else if c1 = 'ㄴ' ∧ c2 = 'ㅈ' then some 'ㄵ'
  else if c1 = 'ㄴ' ∧ c2 = 'ㅎ' then some 'ㄶ'
  else if c1 = 'ㄹ' ∧ c2 = 'ㄱ' then some 'ㄺ'
  else if c1 = 'ㄹ' ∧ c2 = 'ㅁ' then some 'ㄻ'
  else if c1 = 'ㄹ' ∧ c2 = 'ㅂ' then some 'ㄼ'
  else if c1 = 'ㄹ' ∧ c2 = 'ㅅ' then some 'ㄽ'
  else if c1 = 'ㄹ' ∧ c2 = 'ㅌ' then some 'ㄾ'
  else if c1 = 'ㄹ' ∧ c2 = 'ㅍ' then some 'ㄿ'
  else if c1 = 'ㄹ' ∧ c2 = 'ㅎ' then some 'ㅀ'
  else if c1 = 'ㅂ' ∧ c2 = 'ㅅ' then some 'ㅄ'
  else none

/-- Decomposition of one character (the loop body of decompose_hangul):
a syllable block U+AC00..U+D7A3 becomes leading+vowel(+trailing) jamo by
the index arithmetic of the source; anything else is pushed unchanged. -/
def decomposeChar (c : Char) : List Char :=
  let u := c.toNat
  if 0xAC00 ≤ u ∧ u ≤ 0xD7A3 then
    [cho_map.getD ((u - 0xAC00) / 28 / 21) 'ㄱ',
     jung_map.getD (((u - 0xAC00) / 28) % 21) 'ㅏ']
      ++ (if 0 < (u - 0xAC00) % 28
          then [jong_map.getD ((u - 0xAC00) % 28) '\x00'] else [])
  else [c]

/-- Rust: fn decompose_hangul (lookup.rs). -/
def decompose_hangul (text : List Char) : List Char :=
  text.flatMap decomposeChar

/-- is_next_vowel of compose_hangul: whether the next character (if any)
is a vowel jamo. -/
def headIsJung : List Char → Bool
  | c :: _ => is_jung c
  | [] => false

/-- The syllable block emitted by compose_hangul:
0xAC00 + cho_idx*21*28 + jung_idx*28 + jong_idx (always a valid scalar
value here, so the source's from_u32 never returns None). -/
def sylChar (c1 c2 : Char) (jongIdx : Nat) : Char :=
  Char.ofNat (0xAC00 + get_cho_idx c1 * 21 * 28 + get_jung_idx c2 * 28 + jongIdx)

/-- Rust: the loop body of compose_hangul starting at character c1 with
the remaining characters as the second argument; the index walk with
`consumed` in {1,2,3,4} becomes structural recursion on the remainder. -/
def composeStep (c1 : Char) : List Char → List Char
  | [] => [c1]
  | c2 :: rest2 =>
    if is_cho c1 && is_jung c2 then
      match rest2 with
      | [] => [sylChar c1 c2 0]
      | c3 :: rest3 =>
        if is_jong c3 && !(headIsJung rest3) then
          match rest3 with
          | [] => [sylChar c1 c2 (get_jong_idx c3)]
          | c4 :: rest4 =>
            match combine_jong c3 c4 with
            | some cj =>
              if !(headIsJung rest4) then
                sylChar c1 c2 (get_jong_idx cj) ::
                  (match rest4 with
                   | [] => []
                   | c5 :: rest5 => composeStep c5 rest5)
              else sylChar c1 c2 (get_jong_idx c3) :: composeStep c4 rest4
            | none => sylChar c1 c2 (get_jong_idx c3) :: composeStep c4 rest4
        else sylChar c1 c2 0 :: composeStep c3 rest3
    else c1 :: composeStep c2 rest2

/-- Rust: fn compose_hangul (lookup.rs). -/
def compose_hangul : List Char → List Char
  | [] => []
  | c :: rest => composeStep c rest

-- sanity: a full syllable round trip including a ㄺ cluster, and the
-- cluster rule not firing before a vowel.
example : decompose_hangul ['닭'] = ['ㄷ', 'ㅏ', 'ㄺ'] := by decide
example : compose_hangul ['ㄷ', 'ㅏ', 'ㄺ'] = ['닭'] := by decide
example : compose_hangul (decompose_hangul ['달', '기']) = ['달', '기'] := by
  decide

/- Claim C9: the Hangul round trip. -/

/-- A precomposed Hangul syllable block U+AC00..U+D7A3. -/
def isHangulSyllable (c : Char) : Prop :=
  0xAC00 ≤ c.toNat ∧ c.toNat ≤ 0xD7A3

/-- A character that is neither a syllable block nor one of the
compatibility jamo the composer reacts to. -/
def isJamoFree (c : Char) : Prop :=
  is_cho c = false ∧ is_jung c = false ∧ is_jong c = false
    ∧ ¬ isHangulSyllable c

instance (c : Char) : Decidable (isHangulSyllable c) := by
  unfold isHangulSyllable
  infer_instance

instance (c : Char) : Decidable (isJamoFree c) := by
  unfold isJamoFree
  infer_instance

theorem decompose_cons (c : Char) (cs : List Char) :
    decompose_hangul (c :: cs) = decomposeChar c ++ decompose_hangul cs := rfl

theorem decomposeChar_safe (c : Char) (h : ¬ isHangulSyllable c) :
    decomposeChar c = [c] := by
  have h2 : ¬ (0xAC00 ≤ c.toNat ∧ c.toNat ≤ 0xD7A3) := h
  simp only [decomposeChar]
  rw [if_neg h2]

theorem decomposeChar_syl (c : Char) (h1 : 0xAC00 ≤ c.toNat)
    (h2 : c.toNat ≤ 0xD7A3) :
    decomposeChar c =
      cho_map.getD ((c.toNat - 0xAC00) / 28 / 21) 'ㄱ'
        :: jung_map.getD (((c.toNat - 0xAC00) / 28) % 21) 'ㅏ'
        :: (if 0 < (c.toNat - 0xAC00) % 28
            then [jong_map.getD ((c.toNat - 0xAC00) % 28) '\x00'] else []) := by
  simp only [decomposeChar]
  rw [if_pos ⟨h1, h2⟩]
  simp

theorem cho_idx_round : ∀ i, i < 19 → get_cho_idx (cho_map.getD i 'ㄱ') = i := by
  decide

theorem jung_idx_round : ∀ i, i < 21 → get_jung_idx (jung_map.getD i 'ㅏ') = i := by
  decide

theorem jong_idx_round : ∀ j, j < 27 →
    get_jong_idx (jong_set.getD j '\x00') = j + 1 := by
  decide

theorem cho_mem : ∀ i, i < 19 → is_cho (cho_map.getD i 'ㄱ') = true := by decide

theorem jung_mem : ∀ i, i < 21 → is_jung (jung_map.getD i 'ㅏ') = true := by
  decide

theorem jong_mem : ∀ j, j < 27 → is_jong (jong_set.getD j '\x00') = true := by
  decide

theorem cho_not_jung (c : Char) (hc : is_cho c = true) : is_jung c = false := by
  have hall : ∀ x ∈ cho_map, is_jung x = false := by decide
  exact hall c (List.mem_of_elem_eq_true hc)

theorem combine_jong_eq_none (c3 c4 : Char) (h : is_cho c4 = false) :
    combine_jong c3 c4 = none := by
  have n1 : c4 ≠ 'ㅅ' := fun hh => absurd (hh ▸ h) (by decide)
  have n2 : c4 ≠ 'ㅈ' := fun hh => absurd (hh ▸ h) (by decide)
  have n3 : c4 ≠ 'ㅎ' := fun hh => absurd (hh ▸ h) (by decide)
  have n4 : c4 ≠ 'ㄱ' := fun hh => absurd (hh ▸ h) (by decide)
  have n5 : c4 ≠ 'ㅁ' := fun hh => absurd (hh ▸ h) (by decide)
  have n6 : c4 ≠ 'ㅂ' := fun hh => absurd (hh ▸ h) (by decide)
  have n7 : c4 ≠ 'ㅌ' := fun hh => absurd (hh ▸ h) (by decide)
  have n8 : c4 ≠ 'ㅍ' := fun hh => absurd (hh ▸ h) (by decide)
  have p1 : ¬ (c3 = 'ㄱ' ∧ c4 = 'ㅅ') := fun hc => n1 hc.2
  have p2 : ¬ (c3 = 'ㄴ' ∧ c4 = 'ㅈ') := fun hc => n2 hc.2
  have p3 : ¬ (c3 = 'ㄴ' ∧ c4 = 'ㅎ') := fun hc => n3 hc.2
  have p4 : ¬ (c3 = 'ㄹ' ∧ c4 = 'ㄱ') := fun hc => n4 hc.2
  have p5 : ¬ (c3 = 'ㄹ' ∧ c4 = 'ㅁ') := fun hc => n5 hc.2
  have p6 : ¬ (c3 = 'ㄹ' ∧ c4 = 'ㅂ') := fun hc => n6 hc.2
  have p7 : ¬ (c3 = 'ㄹ' ∧ c4 = 'ㅅ') := fun hc => n1 hc.2
  have p8 : ¬ (c3 = 'ㄹ' ∧ c4 = 'ㅌ') := fun hc => n7 hc.2
  have p9 : ¬ (c3 = 'ㄹ' ∧ c4 = 'ㅍ') := fun hc => n8 hc.2
  have p10 : ¬ (c3 = 'ㄹ' ∧ c4 = 'ㅎ') := fun hc => n3 hc.2
  have p11 : ¬ (c3 = 'ㅂ' ∧ c4 = 'ㅅ') := fun hc => n1 hc.2
  simp only [combine_jong]
  rw [if_neg p1, if_neg p2, if_neg p3, if_neg p4, if_neg p5, if_neg p6,
    if_neg p7, if_neg p8, if_neg p9, if_neg p10, if_neg p11]

theorem sylChar_decompose (c : Char) (h1 : 0xAC00 ≤ c.toNat)
    (h2 : c.toNat ≤ 0xD7A3) :
    sylChar (cho_map.getD ((c.toNat - 0xAC00) / 28 / 21) 'ㄱ')
      (jung_map.getD (((c.toNat - 0xAC00) / 28) % 21) 'ㅏ')
      ((c.toNat - 0xAC00) % 28) = c := by
  have hcho : (c.toNat - 0xAC00) / 28 / 21 < 19 := by omega
  have hjung : ((c.toNat - 0xAC00) / 28) % 21 < 21 := by omega
  unfold sylChar
  rw [cho_idx_round _ hcho, jung_idx_round _ hjung]
  have harith : 0xAC00 + (c.toNat - 0xAC00) / 28 / 21 * 21 * 28
      + ((c.toNat - 0xAC00) / 28) % 21 * 28 + (c.toNat - 0xAC00) % 28
      = c.toNat := by omega
  rw [harith, Char.ofNat_toNat]

theorem compose_cons_safe (c1 : Char) (l : List Char) (h : is_cho c1 = false) :
    compose_hangul (c1 :: l) = c1 :: compose_hangul l := by
  show composeStep c1 l = _
  rcases l with - | ⟨c2, - | ⟨c3, - | ⟨c4, - | ⟨c5, rest5⟩⟩⟩⟩ <;>
    simp [composeStep, compose_hangul, h]

theorem compose_syl0 (ch ju : Char) (l : List Char)
    (h1 : is_cho ch = true) (h2 : is_jung ju = true)
    (h3 : ∀ c3 rest3, l = c3 :: rest3 →
        is_jong c3 = false ∨ headIsJung rest3 = true) :
    compose_hangul (ch :: ju :: l) = sylChar ch ju 0 :: compose_hangul l := by
  show composeStep ch (ju :: l) = _
  rcases l with - | ⟨c3, - | ⟨c4, - | ⟨c5, rest5⟩⟩⟩
  · simp [composeStep, compose_hangul, h1, h2]
  · rcases h3 c3 [] rfl with h | h
    · simp [composeStep, compose_hangul, headIsJung, h1, h2, h]
    · simp [headIsJung] at h
  · rcases h3 c3 [c4] rfl with h | h
    · simp [composeStep, compose_hangul, headIsJung, h1, h2, h]
    · simp only [headIsJung] at h
      simp [composeStep, compose_hangul, headIsJung, h1, h2, h]
  · rcases h3 c3 (c4 :: c5 :: rest5) rfl with h | h
    · simp [composeStep, compose_hangul, headIsJung, h1, h2, h]
    · simp only [headIsJung] at h
      simp [composeStep, compose_hangul, headIsJung, h1, h2, h]

theorem compose_sylJ (ch ju jo : Char) (l : List Char)
    (h1 : is_cho ch = true) (h2 : is_jung ju = true) (h3 : is_jong jo = true)
    (h4 : headIsJung l = false)
    (h5 : ∀ c4 rest4, l = c4 :: rest4 →
        combine_jong jo c4 = none ∨ headIsJung rest4 = true) :
    compose_hangul (ch :: ju :: jo :: l) =
      sylChar ch ju (get_jong_idx jo) :: compose_hangul l := by
  show composeStep ch (ju :: jo :: l) = _
  rcases l with - | ⟨c4, - | ⟨c5, rest5⟩⟩
  · simp [composeStep, compose_hangul, headIsJung, h1, h2, h3]
  · have h4b : is_jung c4 = false := by
      simpa [headIsJung] using h4
    rcases h5 c4 [] rfl with h | h
    · simp [composeStep, compose_hangul, headIsJung, h1, h2, h3, h4b, h]
    · simp [headIsJung] at h
  · have h4b : is_jung c4 = false := by
      simpa [headIsJung] using h4
    rcases h5 c4 (c5 :: rest5) rfl with h | h
    · simp [composeStep, compose_hangul, headIsJung, h1, h2, h3, h4b, h]
    · simp only [headIsJung] at h
      cases hc : combine_jong jo c4 with
      | none =>
        simp [composeStep, compose_hangul, headIsJung, h1, h2, h3, h4b, hc]
      | some cj =>
        simp [composeStep, compose_hangul, headIsJung, h1, h2, h3, h4b, hc, h]

/-- The decomposition of a syllable block, packaged with bounded index
variables (so that later goals never manipulate the raw index
arithmetic), together with the reconstruction equation. -/
theorem decomposeChar_syl_parts (c : Char) (h1 : 0xAC00 ≤ c.toNat)
    (h2 : c.toNat ≤ 0xD7A3) :
    ∃ i j k, i < 19 ∧ j < 21 ∧ k < 28
      ∧ decomposeChar c
          = cho_map.getD i 'ㄱ' :: jung_map.getD j 'ㅏ'
            :: (if 0 < k then [jong_map.getD k '\x00'] else [])
      ∧ sylChar (cho_map.getD i 'ㄱ') (jung_map.getD j 'ㅏ') k = c := by
  refine ⟨(c.toNat - 0xAC00) / 28 / 21, ((c.toNat - 0xAC00) / 28) % 21,
    (c.toNat - 0xAC00) % 28, by omega, by omega, by omega,
    decomposeChar_syl c h1 h2, sylChar_decompose c h1 h2⟩

theorem decompose_head_cases (cs : List Char)
    (h : ∀ c ∈ cs, isHangulSyllable c ∨ isJamoFree c) :
    decompose_hangul cs = []
    ∨ (∃ c2 t, decompose_hangul cs = c2 :: t ∧ is_cho c2 = false
        ∧ is_jung c2 = false ∧ is_jong c2 = false)
    ∨ (∃ c2 ju t, decompose_hangul cs = c2 :: ju :: t ∧ is_cho c2 = true
        ∧ is_jung ju = true) := by
  cases cs with
  | nil => exact Or.inl rfl
  | cons c cs2 =>
    rcases h c (List.mem_cons_self _ _) with hsyl | hsafe
    · right; right
      obtain ⟨hh1, hh2⟩ := hsyl
      obtain ⟨i, j, k, hi, hj, hk, hdec, hrec⟩ :=
        decomposeChar_syl_parts c hh1 hh2
      rw [decompose_cons, hdec]
      refine ⟨cho_map.getD i 'ㄱ', jung_map.getD j 'ㅏ',
        (if 0 < k then [jong_map.getD k '\x00'] else [])
          ++ decompose_hangul cs2, ?_, cho_mem i hi, jung_mem j hj⟩
      simp only [List.cons_append]
    · right; left
      rw [decompose_cons, decomposeChar_safe c hsafe.2.2.2]
      exact ⟨c, _, rfl, hsafe.1, hsafe.2.1, hsafe.2.2.1⟩

/-- C9 (amended): for a string of Hangul syllable blocks U+AC00..U+D7A3
and characters that are neither syllable blocks nor compatibility jamo,
recomposition inverts decomposition exactly (in particular the
trailing-consonant-cluster combination does not fire when the following
jamo is a vowel, so a consonant opening the next syllable stays there). -/
theorem c9_round_trip (cs : List Char)
    (h : ∀ c ∈ cs, isHangulSyllable c ∨ isJamoFree c) :
    compose_hangul (decompose_hangul cs) = cs := by
  induction cs with
  | nil => rfl
  | cons c cs2 ih =>
    have htail : ∀ x ∈ cs2, isHangulSyllable x ∨ isJamoFree x :=
      fun x hx => h x (List.mem_cons_of_mem _ hx)
    have ih2 := ih htail
    have hshape := decompose_head_cases cs2 htail
    rw [decompose_cons]
    rcases h c (List.mem_cons_self _ _) with hsyl | hsafe
    · obtain ⟨hh1, hh2⟩ := hsyl
      obtain ⟨i, j, k, hi, hj, hk, hdec, hrec⟩ :=
        decomposeChar_syl_parts c hh1 hh2
      rw [hdec]
      by_cases hk0 : 0 < k
      · rw [if_pos hk0]
        simp only [List.cons_append, List.nil_append]
        have hjo : jong_map.getD k '\x00' = jong_set.getD (k - 1) '\x00' := by
          obtain ⟨m, hm⟩ : ∃ m, k = m + 1 := ⟨k - 1, by omega⟩
          rw [hm]
          simp [jong_map]
        rw [compose_sylJ _ _ _ _ (cho_mem i hi) (jung_mem j hj)
          (by rw [hjo]; exact jong_mem _ (by omega)) ?hvow ?hcl]
        case hvow =>
          rcases hshape with hA | ⟨c2, t, he, hc2, hj2, hjo2⟩
            | ⟨c2, ju2, t, he, hc2, hju2⟩
          · rw [hA]; rfl
          · rw [he]; exact hj2
          · rw [he]
            show is_jung c2 = false
            exact cho_not_jung c2 hc2
        case hcl =>
          intro c4 rest4 he4
          rcases hshape with hA | ⟨c2, t, he, hc2, hj2, hjo2⟩
            | ⟨c2, ju2, t, he, hc2, hju2⟩
          · rw [hA] at he4; cases he4
          · rw [he] at he4
            injection he4 with e1 e2
            exact Or.inl (combine_jong_eq_none _ c4 (e1 ▸ hc2))
          · rw [he] at he4
            injection he4 with e1 e2
            right
            rw [← e2]
            exact hju2
        rw [ih2]
        congr 1
        rw [hjo, jong_idx_round _ (by omega)]
        have hk2 : k - 1 + 1 = k := by omega
        rw [hk2]
        exact hrec
      · rw [if_neg hk0]
        simp only [List.cons_append, List.nil_append]
        rw [compose_syl0 _ _ _ (cho_mem i hi) (jung_mem j hj) ?hnext]
        case hnext =>
          intro c3 rest3 he3
          rcases hshape with hA | ⟨c2, t, he, hc2, hj2, hjo2⟩
            | ⟨c2, ju2, t, he, hc2, hju2⟩
          · rw [hA] at he3; cases he3
          · rw [he] at he3
            injection he3 with e1 e2
            exact Or.inl (e1 ▸ hjo2)
          · rw [he] at he3
            injection he3 with e1 e2
            right
            rw [← e2]
            exact hju2
        rw [ih2]
        congr 1
        have h0 : k = 0 := by omega
        rw [h0] at hrec
        exact hrec
    · rw [decomposeChar_safe c hsafe.2.2.2]
      show compose_hangul (c :: decompose_hangul cs2) = c :: cs2
      rw [compose_cons_safe c _ hsafe.1, ih2]


/-- C9 counterexample: the raw jamo pair "ㄱㅏ" is left untouched by
decomposition (neither character is a syllable block), yet recomposition
combines it into the syllable "가", so compose∘decompose is not the
identity on all strings of characters left untouched by decomposition. -/
theorem c9_counterexample :
    decompose_hangul ['ㄱ', 'ㅏ'] = ['ㄱ', 'ㅏ']
    ∧ compose_hangul (decompose_hangul ['ㄱ', 'ㅏ']) = ['가']
    ∧ (['가'] : List Char) ≠ ['ㄱ', 'ㅏ'] := by
  refine ⟨by decide, by decide, by decide⟩

/-- Witness for c9_round_trip: a concrete string with a ㄺ cluster, a
following vowel-initial syllable and a Latin letter round-trips. -/
theorem c9_witness :
    compose_hangul (decompose_hangul ['닭', '이', 'x', '갃']) =
      ['닭', '이', 'x', '갃'] :=
  c9_round_trip ['닭', '이', 'x', '갃'] (by decide)

/- Part 3: the candidate generator / search orchestrator of
   src/crates/yomitan-server/src/lookup.rs.  External dependencies are
   oracles: the Lindera tokenizer is a function returning the first
   token's lemma (details[7]) and char count when tokenization yields a
   first token with at least 8 detail fields; Unicode lowercasing
   (str::to_lowercase) is a function; the term store (SQLite +
   snappy + serde) is a function from a word to its decoded rows (rows
   whose blobs fail to decompress/deserialize are skipped by the source
   and are simply absent from the oracle's answer). -/

/-- Rust: enum Script (lookup.rs). -/
inductive Script where
  | japanese
  | korean
  | latin
  | chinese
  | other
deriving DecidableEq

/-- Rust: struct Candidate (lookup.rs). -/
structure Candidate where
  word : List Char
  source_len : Nat
  reasonTag : String
deriving DecidableEq

/-- char::is_ascii_alphabetic. -/
def is_ascii_alphabetic (c : Char) : Bool :=
  (0x41 ≤ c.toNat && c.toNat ≤ 0x5A) || (0x61 ≤ c.toNat && c.toNat ≤ 0x7A)

/-- First loop of detect_script: Korean or Japanese ranges. -/
def detect_script_first : List Char → Option Script
  | [] => none
  | c :: cs =>
    if (0xAC00 ≤ c.toNat ∧ c.toNat ≤ 0xD7AF)
        ∨ (0x1100 ≤ c.toNat ∧ c.toNat ≤ 0x11FF) then some .korean
    else if 0x3040 ≤ c.toNat ∧ c.toNat ≤ 0x30FF then some .japanese
    else detect_script_first cs

/-- Second loop of detect_script: Latin or Chinese ranges. -/
def detect_script_second : List Char → Option Script
  | [] => none
  | c :: cs =>
    if is_ascii_alphabetic c = true
        ∨ (0x00C0 ≤ c.toNat ∧ c.toNat ≤ 0x00FF) then some .latin
    else if 0x4E00 ≤ c.toNat ∧ c.toNat ≤ 0x9FFF then some .chinese
    else detect_script_second cs

/-- Rust: fn detect_script (lookup.rs). -/
def detect_script (chars : List Char) : Script :=
  match detect_script_first chars with
  | some s => s
  | none =>
    match detect_script_second chars with
    | some s => s
    | none => .other

/-- Rust: fn is_ideograph (lookup.rs). -/
def is_ideograph (c : Char) : Bool :=
  0x4E00 ≤ c.toNat && c.toNat ≤ 0x9FFF

/-- Rust: fn is_valid_candidate (lookup.rs). -/
def is_valid_candidate (source cand : List Char) (script : Script) : Bool :=
  if source == cand then true
  else
    match script with
    | .japanese | .chinese =>
      let source_kanji := source.filter is_ideograph
      let cand_kanji := cand.filter is_ideograph
      if !cand_kanji.isEmpty then
        cand_kanji.any (fun k => source_kanji.contains k)
      else true
    | _ => true

/-- Rust: the rules table of generate_korean_candidates (lookup.rs). -/
def korean_rules : List (List Char × List Char) :=
  [("ㅎㅏㄱㅔ".toList, "ㅎㅏㄷㅏ".toList),
   ("ㅅㅡㅂㄴㅣㄷㅏ".toList, "ㄷㅏ".toList),
   ("ㅂㄴㅣㄷㅏ".toList, "ㄷㅏ".toList),
   ("ㅎㅐ".toList, "ㅎㅏㄷㅏ".toList),
   ("ㅎㅐㅇㅛ".toList, "ㅎㅏㄷㅏ".toList),
   ("ㅇㅛ".toList, "".toList),
   ("ㅇㅛ".toList, "ㄷㅏ".toList),
   ("ㄱㅗ".toList, "ㄷㅏ".toList),
   ("ㄱㅔ".toList, "ㄷㅏ".toList),
   ("ㄱㅣ".toList, "ㄷㅏ".toList),
   ("ㅈㅣ".toList, "ㄷㅏ".toList),
   ("ㅁㅕ".toList, "ㄷㅏ".toList),
   ("ㅁㅕㄴ".toList, "ㄷㅏ".toList),
   ("ㄴㅣ".toList, "ㄷㅏ".toList),
   ("ㄴㅏ".toList, "ㄷㅏ".toList),
   ("ㄴㅡㄴ".toList, "ㄷㅏ".toList),
   ("ㅇㅡㄴ".toList, "ㄷㅏ".toList),
   ("ㄹ".toList, "ㄷㅏ".toList),
   ("ㅇㅡㄹ".toList, "ㄷㅏ".toList),
   ("ㄷㅓㄴ".toList, "ㄷㅏ".toList),
   ("ㄷㅗ".toList, "".toList),
   ("ㅁㅏㄴ".toList, "".toList),
   ("ㄹㅡㄹ".toList, "".toList),
   ("ㅇㅡㄹ".toList, "".toList),
   ("ㄱㅏ".toList, "".toList),
   ("ㅇㅣ".toList, "".toList),
   ("ㄴㅡㄴ".toList, "".toList),
   ("ㅇㅡㄴ".toList, "".toList),
   ("ㅆㄷㅏ".toList, "ㄷㅏ".toList),
   ("ㅆㅇㅓ".toList, "ㄷㅏ".toList),
   ("ㅆㅇㅓㅇㅛ".toList, "ㄷㅏ".toList),
   ("ㅇㅏㅆ".toList, "ㄷㅏ".toList),
   ("ㅇㅓㅆ".toList, "ㄷㅏ".toList),
   ("ㅈㅛ".toList, "ㄷㅏ".toList),
   ("ㅈㅛ".toList, "".toList),
   ("ㅅㅓ".toList, "ㄷㅏ".toList)]

/-- Rust: fn generate_korean_candidates (lookup.rs). -/
def generate_korean_candidates (text : List Char) : List Candidate :=
  let src_len := text.length
  let jamo := decompose_hangul text
  korean_rules.filterMap (fun rule =>
    if rule.1.isSuffixOf jamo then
      let stem_len := jamo.length - rule.1.length
      let new_jamo := jamo.take stem_len ++ rule.2
      let recomposed := compose_hangul new_jamo
      if recomposed ≠ text ∧ recomposed ≠ [] then
        some ⟨recomposed, src_len, "Ko-Deinflect"⟩
      else none
    else none)

/-- Byte length of a string modelled as List Char (str::len). -/
def utf8Len (l : List Char) : Nat := (l.map Char.utf8Size).sum

/-- Rust: the prefixes table of generate_english_candidates. -/
def english_prefixes : List (List Char × List Char) :=
  [("un".toList, [] ), ("re".toList, [])]

/-- Rust: the suffixes table (suffix, replacement, check_doubled). -/
def english_suffixes : List (List Char × List Char × Bool) :=
  [("s".toList, "".toList, false),
   ("es".toList, "".toList, false),
   ("ies".toList, "y".toList, false),
   ("ves".toList, "f".toList, false),
   ("ves".toList, "fe".toList, false),
   ("ing".toList, "".toList, true),
   ("ing".toList, "e".toList, false),
   ("ed".toList, "".toList, true),
   ("ed".toList, "e".toList, false),
   ("er".toList, "".toList, true),
   ("er".toList, "e".toList, false),
   ("est".toList, "".toList, true),
   ("est".toList, "e".toList, false),
   ("ly".toList, "".toList, false),
   ("able".toList, "".toList, true),
   ("able".toList, "e".toList, false)]

def double_consonants : List Char := "bdgklmnprstz".toList

/-- Rust: fn generate_english_candidates (lookup.rs), with Unicode
lowercasing supplied as an oracle.  Byte indices of the source (str::len)
are modelled with utf8Len; the source's nth(stem.len() - 2).unwrap()
panics when that byte index exceeds the char count — the model yields no
candidate there. -/
def generate_english_candidates (toLowerF : List Char → List Char)
    (text : List Char) : List Candidate :=
  let src_len := text.length
  let lower := toLowerF text
  (if lower ≠ text then [⟨lower, src_len, "Lowercase"⟩] else [])
  ++ english_prefixes.filterMap (fun rule =>
      if rule.1.isPrefixOf lower then
        some ⟨rule.2 ++ lower.drop rule.1.length, src_len, "En-Prefix"⟩
      else none)
  ++ english_suffixes.flatMap (fun rule =>
      if rule.1.isSuffixOf lower then
        let stem := lower.take (lower.length - rule.1.length)
        ⟨stem ++ rule.2.1, src_len, "En-Suffix"⟩ ::
          (if rule.2.2 = true ∧ 2 ≤ utf8Len stem then
            match stem.getLast?, stem.get? (utf8Len stem - 2) with
            | some lastc, some secondlast =>
              if lastc = secondlast ∧ double_consonants.contains lastc then
                [⟨stem.dropLast ++ rule.2.1, src_len, "En-Double"⟩]
              else []
            | _, _ => []
          else [])
      else [])

/-- The external collaborators of the search path. -/
structure Externals where
  lindera : List Char → Option (List Char × Nat)
  toLowerF : List Char → List Char

/-- Rust: fn generate_candidates (lookup.rs). -/
def generate_candidates (ext : Externals) (text : List Char)
    (script : Script) : List Candidate :=
  ⟨text, text.length, "Original"⟩ ::
    (match script with
     | .japanese =>
       match ext.lindera text with
       | some lem =>
         if lem.1 ≠ ['*'] ∧ lem.1 ≠ text then [⟨lem.1, lem.2, "Lindera"⟩]
         else []
       | none => []
     | .korean => generate_korean_candidates text
     | .latin => generate_english_candidates ext.toLowerF text
     | _ => [])

/-- Rust: wordbase_api::FrequencyValue. -/
inductive FrequencyValue where
  | rank (v : Int)
  | occurrence (v : Int)
deriving DecidableEq

/-- The record payload, as far as search inspects it: a Yomitan glossary
carries the popularity used as frequency, everything else yields 0. -/
inductive RecordPayload where
  | yomitanGlossary (popularity : Int)
  | otherRecord
deriving DecidableEq

/-- Rust: struct StoredRecord (state.rs), the deserialized blob. -/
structure StoredRecord where
  dictionary_id : Int
  reading : Option (List Char)
  record : RecordPayload
  term_tags : Option (List String)
deriving DecidableEq

/-- One row of the terms table: the dictionary_id column and the decoded
blob. -/
structure StoredRow where
  dict_id : Int
  stored : StoredRecord
deriving DecidableEq

/-- Rust: wordbase_api::RecordEntry, restricted to the fields search
fills (span starts are always 0; record_id is always 0;
profile_sorting_frequency is always None). -/
structure RecordEntry where
  span_bytes : Nat
  span_chars : Nat
  source : Int
  word : List Char
  reading : Option (List Char)
  record : RecordPayload
  source_sorting_frequency : Option FrequencyValue
deriving DecidableEq

/-- The enabled test of the row filter: a dictionary id absent from the
configuration map is not filtered out. -/
def rowEnabled (configs : Int → Option (Bool × Int)) (dictId : Int) : Bool :=
  match configs dictId with
  | some cfg => cfg.1
  | none => true

/-- The RecordEntry built for one surviving row (lookup.rs lines
139-178). -/
def entryOfRow (word : List Char) (matchLen : Nat) (row : StoredRow) :
    RecordEntry × Option (List String) :=
  let freq : Int :=
    match row.stored.record with
    | .yomitanGlossary g => g
    | .otherRecord => 0
  (⟨utf8Len word, matchLen, row.stored.dictionary_id, word,
    row.stored.reading, row.stored.record, some (.rank freq)⟩,
   row.stored.term_tags)

/-- All entries one store query contributes, in row order. -/
def processRows (configs : Int → Option (Bool × Int)) (word : List Char)
    (matchLen : Nat) (rows : List StoredRow) :
    List (RecordEntry × Option (List String)) :=
  (rows.filter (fun row => rowEnabled configs row.dict_id)).map
    (entryOfRow word matchLen)

/-- The mutable state of the candidate loop.  `queried` is ghost
instrumentation recording the words sent to the store, in query order; it
is written exactly when `processed` is extended and read by nothing. -/
structure SearchState where
  results : List (RecordEntry × Option (List String))
  processed : List (List Char)
  queried : List (List Char)
deriving DecidableEq

/-- The body of the candidate loop (validity filter, dedup, store
query). -/
def processCandidate (configs : Int → Option (Bool × Int))
    (store : List Char → List StoredRow) (script : Script)
    (substring : List Char) (st : SearchState) (cand : Candidate) :
    SearchState :=
  if is_valid_candidate substring cand.word script = false then st
  else if st.processed.contains cand.word then st
  else
    ⟨st.results ++ processRows configs cand.word cand.source_len (store cand.word),
     cand.word :: st.processed,
     st.queried ++ [cand.word]⟩

/-- str::eq_ignore_ascii_case. -/
def asciiLower (c : Char) : Char :=
  if 'A' ≤ c ∧ c ≤ 'Z' then Char.ofNat (c.toNat + 32) else c

def eq_ignore_ascii_case (a b : List Char) : Bool :=
  a.map asciiLower == b.map asciiLower

/-- The `for len in (1..=chars.len()).rev()` loop: processes length
`len`, then len-1, ..., down to 1. -/
def searchLengths (ext : Externals) (configs : Int → Option (Bool × Int))
    (store : List Char → List StoredRow) (script : Script)
    (chars : List Char) : Nat → SearchState → SearchState
  | 0, st => st
  | len + 1, st =>
    let substring := chars.take (len + 1)
    let st2 :=
      if script = .latin ∧ len + 1 < 2
          ∧ eq_ignore_ascii_case substring ['a'] = false
          ∧ eq_ignore_ascii_case substring ['i'] = false then st
      else
        (generate_candidates ext substring script).foldl
          (processCandidate configs store script substring) st
    searchLengths ext configs store script chars len st2

/-- Rust: fn snap_to_char_boundary combined with the slice
text[start_index..]: drop whole characters while the byte offset covers
them; an offset inside a character snaps down to its start. -/
def dropToBoundary : List Char → Nat → List Char
  | cs, 0 => cs
  | [], _ + 1 => []
  | c :: cs, i + 1 =>
    if c.utf8Size ≤ i + 1 then dropToBoundary cs (i + 1 - c.utf8Size)
    else c :: cs

/-- The state after the whole length loop of search (empty when the
snapped cursor is at or beyond the end of the text). -/
def searchState (ext : Externals) (configs : Int → Option (Bool × Int))
    (store : List Char → List StoredRow) (text : List Char)
    (cursor_offset : Nat) : SearchState :=
  let search_text := dropToBoundary text cursor_offset
  if search_text = [] then ⟨[], [], []⟩
  else
    let chars := search_text.take 24
    searchLengths ext configs store (detect_script chars) chars
      chars.length ⟨[], [], []⟩

/-- get_val of the final comparator (lookup.rs lines 207-213). -/
def get_val (f : Option FrequencyValue) : Int :=
  match f with
  | some (.rank v) => v
  | some (.occurrence v) => v
  | none => 0

/-- The priority used by the comparator: the configured priority, or 999
for a dictionary absent from the configuration map. -/
def effPriority (configs : Int → Option (Bool × Int)) (dictId : Int) : Int :=
  match configs dictId with
  | some cfg => cfg.2
  | none => 999

/-- The comparator of results.sort_by (lookup.rs lines 187-216): match
length descending, then dictionary priority ascending, then frequency
descending. -/
def cmpEntry (configs : Int → Option (Bool × Int)) (a b : RecordEntry) :
    Ordering :=
  let lenCmp := compare b.span_chars a.span_chars
  if lenCmp ≠ .eq then lenCmp
  else
    let prioCmp :=
      compare (effPriority configs a.source) (effPriority configs b.source)
    if prioCmp ≠ .eq then prioCmp
    else
      compare (get_val b.source_sorting_frequency)
        (get_val a.source_sorting_frequency)

/-- Rust: LookupService::search (lookup.rs).  Vec::sort_by is a stable
sort; insertion sort is stable, so the orders agree. -/
def search (ext : Externals) (configs : Int → Option (Bool × Int))
    (store : List Char → List StoredRow) (text : List Char)
    (cursor_offset : Nat) : List (RecordEntry × Option (List String)) :=
  List.insertionSort (fun a b => cmpEntry configs a.1 b.1 ≠ Ordering.gt)
    (searchState ext configs store text cursor_offset).results

/-- The words search sends to the store, in query order (the ghost
projection of the loop state). -/
def searchQueries (ext : Externals) (configs : Int → Option (Bool × Int))
    (store : List Char → List StoredRow) (text : List Char)
    (cursor_offset : Nat) : List (List Char) :=
  (searchState ext configs store text cursor_offset).queried

/- Loop-invariant plumbing for the search loops. -/

theorem mem_processRows (configs : Int → Option (Bool × Int))
    (word : List Char) (matchLen : Nat) (rows : List StoredRow)
    (e : RecordEntry × Option (List String))
    (he : e ∈ processRows configs word matchLen rows) :
    e.1.word = word ∧ e.1.span_chars = matchLen := by
  unfold processRows at he
  rw [List.mem_map] at he
  obtain ⟨row, -, hrow⟩ := he
  subst hrow
  exact ⟨rfl, rfl⟩

theorem foldl_preserve {β γ : Type} (f : γ → β → γ) (P : γ → Prop)
    (hf : ∀ st x, P st → P (f st x)) :
    ∀ (l : List β) (st : γ), P st → P (l.foldl f st) := by
  intro l
  induction l with
  | nil => intro st h; exact h
  | cons x xs ih => intro st h; exact ih _ (hf st x h)

theorem searchLengths_preserve (ext : Externals)
    (configs : Int → Option (Bool × Int))
    (store : List Char → List StoredRow) (script : Script)
    (chars : List Char) (P : SearchState → Prop)
    (hstep : ∀ (len : Nat) (st : SearchState), P st →
      P ((generate_candidates ext (chars.take len) script).foldl
          (processCandidate configs store script (chars.take len)) st)) :
    ∀ (len : Nat) (st : SearchState), P st →
      P (searchLengths ext configs store script chars len st) := by
  intro len
  induction len with
  | zero => intro st h; exact h
  | succ n ih =>
    intro st h
    simp only [searchLengths]
    refine ih _ ?_
    split_ifs with hc
    · exact h
    · exact hstep (n + 1) st h

theorem searchState_preserve (ext : Externals)
    (configs : Int → Option (Bool × Int))
    (store : List Char → List StoredRow) (text : List Char) (off : Nat)
    (P : SearchState → Prop) (hinit : P ⟨[], [], []⟩)
    (hstep : ∀ (substring : List Char) (st : SearchState), P st →
      (∀ x ∈ substring, x ∈ (dropToBoundary text off).take 24) →
      P ((generate_candidates ext substring
            (detect_script ((dropToBoundary text off).take 24))).foldl
          (processCandidate configs store
            (detect_script ((dropToBoundary text off).take 24)) substring) st)) :
    P (searchState ext configs store text off) := by
  have hzeta : searchState ext configs store text off
      = if dropToBoundary text off = [] then ⟨[], [], []⟩
        else searchLengths ext configs store
          (detect_script ((dropToBoundary text off).take 24))
          ((dropToBoundary text off).take 24)
          ((dropToBoundary text off).take 24).length ⟨[], [], []⟩ := rfl
  rw [hzeta]
  split_ifs with hempty
  · exact hinit
  · refine searchLengths_preserve ext configs store _ _ P ?_ _ _ hinit
    intro len st h
    exact hstep _ st h (fun x hx => List.take_subset _ _ hx)

/- Claim C8: dedup by word, one query per word, one span per word. -/

/-- The dedup invariant of the candidate loop: the processed set is
duplicate-free, mirrors the query log (newest first), owns every
result's word, and all results sharing a word share a span. -/
def stateInv (st : SearchState) : Prop :=
  st.processed.Nodup
    ∧ st.processed = st.queried.reverse
    ∧ (∀ e ∈ st.results,
        (e : RecordEntry × Option (List String)).1.word ∈ st.processed)
    ∧ (∀ e1 ∈ st.results, ∀ e2 ∈ st.results,
        (e1 : RecordEntry × Option (List String)).1.word
            = (e2 : RecordEntry × Option (List String)).1.word →
          e1.1.span_chars = e2.1.span_chars)

theorem processCandidate_stateInv (configs : Int → Option (Bool × Int))
    (store : List Char → List StoredRow) (script : Script)
    (substring : List Char) (st : SearchState) (cand : Candidate)
    (h : stateInv st) :
    stateInv (processCandidate configs store script substring st cand) := by
  obtain ⟨hnd, hpq, hw, hspan⟩ := h
  unfold processCandidate
  split_ifs with h1 h2
  · exact ⟨hnd, hpq, hw, hspan⟩
  · exact ⟨hnd, hpq, hw, hspan⟩
  · have hnotmem : cand.word ∉ st.processed := by
      intro hmem
      exact h2 (List.elem_eq_true_of_mem hmem)
    refine ⟨?_, ?_, ?_, ?_⟩
    · exact List.nodup_cons.mpr ⟨hnotmem, hnd⟩
    · simp [hpq]
    · intro e he
      rcases List.mem_append.mp he with he | he
      · exact List.mem_cons_of_mem _ (hw e he)
      · rw [(mem_processRows configs _ _ _ e he).1]
        exact List.mem_cons_self _ _
    · intro e1 he1 e2 he2 heq
      rcases List.mem_append.mp he1 with he1 | he1 <;>
        rcases List.mem_append.mp he2 with he2 | he2
      · exact hspan e1 he1 e2 he2 heq
      · exfalso
        obtain ⟨hw2, -⟩ := mem_processRows configs _ _ _ e2 he2
        exact hnotmem (hw2 ▸ heq ▸ hw e1 he1)
      · exfalso
        obtain ⟨hw1, -⟩ := mem_processRows configs _ _ _ e1 he1
        exact hnotmem (hw1 ▸ heq ▸ hw e2 he2)
      · obtain ⟨-, hs1⟩ := mem_processRows configs _ _ _ e1 he1
        obtain ⟨-, hs2⟩ := mem_processRows configs _ _ _ e2 he2
        rw [hs1, hs2]

theorem searchState_stateInv (ext : Externals)
    (configs : Int → Option (Bool × Int))
    (store : List Char → List StoredRow) (text : List Char) (off : Nat) :
    stateInv (searchState ext configs store text off) := by
  refine searchState_preserve ext configs store text off stateInv
    ⟨List.nodup_nil, rfl, fun e he => absurd he (List.not_mem_nil e),
      fun e1 he1 => absurd he1 (List.not_mem_nil e1)⟩ ?_
  intro substring st h hsub
  exact foldl_preserve _ stateInv
    (fun st2 cand h2 =>
      processCandidate_stateInv configs store _ substring st2 cand h2)
    _ st h

/-- C8 (amended): every candidate word is queried against the store at
most once per search call — the dedup key is the word alone, across
substring lengths — and all returned entries bearing the same word carry
the same span_chars: the source_len recorded by the first candidate
queried with that word (lengths are scanned 24 down to 1, so the longest
producing length is encountered first; for original/Korean/English
candidates that source_len is the substring character count, while for a
tokenizer-derived candidate it is the first token's character count). -/
theorem c8_dedup :
    (∀ (ext : Externals) (configs : Int → Option (Bool × Int))
        (store : List Char → List StoredRow) (text : List Char) (off : Nat),
        (searchQueries ext configs store text off).Nodup)
    ∧ (∀ (ext : Externals) (configs : Int → Option (Bool × Int))
        (store : List Char → List StoredRow) (text : List Char) (off : Nat),
        ∀ e1 ∈ search ext configs store text off,
          ∀ e2 ∈ search ext configs store text off,
            (e1 : RecordEntry × Option (List String)).1.word
                = (e2 : RecordEntry × Option (List String)).1.word →
              e1.1.span_chars = e2.1.span_chars) := by
  constructor
  · intro ext configs store text off
    obtain ⟨hnd, hpq, -, -⟩ := searchState_stateInv ext configs store text off
    unfold searchQueries
    rw [← List.nodup_reverse, ← hpq]
    exact hnd
  · intro ext configs store text off e1 he1 e2 he2 heq
    obtain ⟨-, -, -, hspan⟩ := searchState_stateInv ext configs store text off
    have hperm : List.Perm (search ext configs store text off)
        (searchState ext configs store text off).results :=
      List.perm_insertionSort _ _
    exact hspan e1 (hperm.mem_iff.mp he1) e2 (hperm.mem_iff.mp he2) heq

-- fixtures for the C8 counterexample: a Japanese window "あxy" whose
-- tokenizer lemma for the full window is the two-char word "あx" with
-- first-token length 2; the store knows "あx" under dictionary 7.
def noConfigs : Int → Option (Bool × Int) := fun _ => none

def c8Ext : Externals :=
  ⟨fun t => if t = "あxy".toList then some ("あx".toList, 2) else none,
   fun l => l⟩

def c8Store : List Char → List StoredRow :=
  fun w => if w = "あx".toList then [⟨7, ⟨7, none, .otherRecord, none⟩⟩]
    else []

/-- C8 counterexample: the word "あx" is produced both at substring
length 3 (tokenizer lemma of "あxy") and at substring length 2 (the
substring itself); the longer length is encountered first, but the span
reported on its record entry is the first token's char count 2, not the
producing substring's character count 3. -/
theorem c8_counterexample :
    searchQueries c8Ext noConfigs c8Store "あxy".toList 0
        = ["あxy".toList, "あx".toList, "あ".toList]
    ∧ (search c8Ext noConfigs c8Store "あxy".toList 0).map
        (fun e => (e.1.word, e.1.span_chars))
        = [("あx".toList, 2)]
    ∧ (2 : Nat) ≠ 3 := by
  refine ⟨by decide, by decide, by decide⟩

/-- Witness for c8_dedup's span part on the concrete run. -/
theorem c8_witness :
    ∀ e1 ∈ search c8Ext noConfigs c8Store "あxy".toList 0,
      ∀ e2 ∈ search c8Ext noConfigs c8Store "あxy".toList 0,
        (e1 : RecordEntry × Option (List String)).1.word
            = (e2 : RecordEntry × Option (List String)).1.word →
          e1.1.span_chars = e2.1.span_chars :=
  c8_dedup.2 c8Ext noConfigs c8Store "あxy".toList 0

/- Claim C7: the ranking comparator is a total order on the output. -/

theorem cmpEntry_ne_gt_iff (configs : Int → Option (Bool × Int))
    (a b : RecordEntry) :
    (cmpEntry configs a b ≠ Ordering.gt) ↔
      (b.span_chars < a.span_chars
        ∨ (b.span_chars = a.span_chars
            ∧ (effPriority configs a.source < effPriority configs b.source
                ∨ (effPriority configs a.source = effPriority configs b.source
                    ∧ get_val b.source_sorting_frequency
                        ≤ get_val a.source_sorting_frequency)))) := by
  unfold cmpEntry
  cases hlen : compare b.span_chars a.span_chars with
  | lt =>
    have h1 : b.span_chars < a.span_chars := compare_lt_iff_lt.mp hlen
    simp [h1]
  | gt =>
    have h1 : a.span_chars < b.span_chars := compare_gt_iff_gt.mp hlen
    constructor
    · intro h2
      simp at h2
    · intro h2
      exfalso
      rcases h2 with h2 | ⟨h2, -⟩ <;> omega
  | eq =>
    have h1 : b.span_chars = a.span_chars := compare_eq_iff_eq.mp hlen
    cases hp : compare (effPriority configs a.source)
        (effPriority configs b.source) with
    | lt =>
      have h2 := compare_lt_iff_lt.mp hp
      simp [h1, h2]
    | gt =>
      have h2 : effPriority configs b.source < effPriority configs a.source :=
        compare_gt_iff_gt.mp hp
      constructor
      · intro h3
        simp at h3
      · intro h3
        exfalso
        rcases h3 with h3 | ⟨-, h3 | ⟨h3, -⟩⟩ <;> omega
    | eq =>
      have h2 : effPriority configs a.source = effPriority configs b.source :=
        compare_eq_iff_eq.mp hp
      constructor
      · intro h3
        have h4 : ¬ (get_val a.source_sorting_frequency
            < get_val b.source_sorting_frequency) := by
          intro hlt
          have : compare (get_val b.source_sorting_frequency)
              (get_val a.source_sorting_frequency) = Ordering.gt :=
            compare_gt_iff_gt.mpr hlt
          simp [this] at h3
        right
        exact ⟨h1, Or.inr ⟨h2, by omega⟩⟩
      · intro h3
        rcases h3 with h3 | ⟨-, h3 | ⟨-, h3⟩⟩
        · omega
        · omega
        · have h5 : ¬ (compare (get_val b.source_sorting_frequency)
              (get_val a.source_sorting_frequency) = Ordering.gt) := by
            rw [compare_gt_iff_gt]
            omega
          simp only [ne_eq]
          intro hcontra
          simp at hcontra
          exact h5 hcontra

theorem cmpEntry_trans (configs : Int → Option (Bool × Int))
    (a b c : RecordEntry) (hab : cmpEntry configs a b ≠ Ordering.gt)
    (hbc : cmpEntry configs b c ≠ Ordering.gt) :
    cmpEntry configs a c ≠ Ordering.gt := by
  rw [cmpEntry_ne_gt_iff] at hab hbc ⊢
  rcases hab with h | ⟨h1, h2⟩ <;> rcases hbc with h' | ⟨h3, h4⟩
  · exact Or.inl (by omega)
  · exact Or.inl (by omega)
  · exact Or.inl (by omega)
  · right
    refine ⟨by omega, ?_⟩
    rcases h2 with h2 | ⟨h2a, h2b⟩ <;> rcases h4 with h4 | ⟨h4a, h4b⟩
    · exact Or.inl (by omega)
    · exact Or.inl (by omega)
    · exact Or.inl (by omega)
    · exact Or.inr ⟨by omega, by omega⟩

theorem cmpEntry_total (configs : Int → Option (Bool × Int))
    (a b : RecordEntry) :
    cmpEntry configs a b ≠ Ordering.gt ∨ cmpEntry configs b a ≠ Ordering.gt := by
  rw [cmpEntry_ne_gt_iff, cmpEntry_ne_gt_iff]
  omega

-- fixtures for the concrete three-match ranking example of the claim:
-- lengths {3,3,2}, priorities {1,0,unconfigured}, frequencies {5,9,absent}.
def noExt : Externals := ⟨fun _ => none, fun l => l⟩

def c7Configs : Int → Option (Bool × Int) :=
  fun d => if d = 1 then some (true, 1)
    else if d = 2 then some (true, 0) else none

def c7Store : List Char → List StoredRow :=
  fun w =>
    if w = "123".toList then
      [⟨1, ⟨1, none, .yomitanGlossary 5, none⟩⟩,
       ⟨2, ⟨2, none, .yomitanGlossary 9, none⟩⟩]
    else if w = "12".toList then [⟨3, ⟨3, none, .otherRecord, none⟩⟩]
    else []

/-- C7: the returned list is totally ordered by the comparator — match
length descending, then dictionary priority ascending (999 for an
unconfigured dictionary), then frequency descending with a missing value
read as 0 — and on the claim's three synthetic matches with lengths
{3,3,2}, priorities {1,0,unconfigured} and frequencies {5,9,absent} the
output order is [priority 0 & len 3, priority 1 & len 3, len 2]. -/
theorem c7_ranking :
    (∀ (ext : Externals) (configs : Int → Option (Bool × Int))
        (store : List Char → List StoredRow) (text : List Char) (off : Nat),
        (search ext configs store text off).Pairwise
          (fun a b => cmpEntry configs a.1 b.1 ≠ Ordering.gt))
    ∧ (search noExt c7Configs c7Store "123".toList 0).map
        (fun e => (e.1.source, e.1.span_chars,
          effPriority c7Configs e.1.source,
          get_val e.1.source_sorting_frequency))
        = [(2, 3, 0, 9), (1, 3, 1, 5), (3, 2, 999, 0)] := by
  constructor
  · intro ext configs store text off
    haveI hTr : IsTrans (RecordEntry × Option (List String))
        (fun a b => cmpEntry configs a.1 b.1 ≠ Ordering.gt) :=
      ⟨fun a b c => cmpEntry_trans configs a.1 b.1 c.1⟩
    haveI hTo : IsTotal (RecordEntry × Option (List String))
        (fun a b => cmpEntry configs a.1 b.1 ≠ Ordering.gt) :=
      ⟨fun a b => cmpEntry_total configs a.1 b.1⟩
    exact List.sorted_insertionSort _ _
  · decide

/- Claim C10: an unconfigured dictionary behaves as enabled, priority
999. -/

theorem processRows_congr (c1 c2 : Int → Option (Bool × Int))
    (hEn : ∀ d, rowEnabled c1 d = rowEnabled c2 d) (word : List Char)
    (matchLen : Nat) (rows : List StoredRow) :
    processRows c1 word matchLen rows = processRows c2 word matchLen rows := by
  unfold processRows
  congr 1
  apply List.filter_congr
  intro row _
  exact hEn row.dict_id

theorem processCandidate_congr (c1 c2 : Int → Option (Bool × Int))
    (hEn : ∀ d, rowEnabled c1 d = rowEnabled c2 d)
    (store : List Char → List StoredRow) (script : Script)
    (substring : List Char) :
    processCandidate c1 store script substring
      = processCandidate c2 store script substring := by
  funext st cand
  unfold processCandidate
  rw [processRows_congr c1 c2 hEn]

theorem searchLengths_congr (c1 c2 : Int → Option (Bool × Int))
    (hEn : ∀ d, rowEnabled c1 d = rowEnabled c2 d) (ext : Externals)
    (store : List Char → List StoredRow) (script : Script)
    (chars : List Char) :
    ∀ (len : Nat) (st : SearchState),
      searchLengths ext c1 store script chars len st
        = searchLengths ext c2 store script chars len st := by
  intro len
  induction len with
  | zero => intro st; rfl
  | succ n ih =>
    intro st
    simp only [searchLengths]
    rw [processCandidate_congr c1 c2 hEn store script (chars.take (n + 1)), ih]

theorem searchState_congr (c1 c2 : Int → Option (Bool × Int))
    (hEn : ∀ d, rowEnabled c1 d = rowEnabled c2 d) (ext : Externals)
    (store : List Char → List StoredRow) (text : List Char) (off : Nat) :
    searchState ext c1 store text off = searchState ext c2 store text off := by
  show (if dropToBoundary text off = [] then (⟨[], [], []⟩ : SearchState)
        else searchLengths ext c1 store
          (detect_script ((dropToBoundary text off).take 24))
          ((dropToBoundary text off).take 24)
          ((dropToBoundary text off).take 24).length ⟨[], [], []⟩) = _
  rw [searchLengths_congr c1 c2 hEn]
  rfl

theorem cmpEntry_congr (c1 c2 : Int → Option (Bool × Int))
    (hPr : ∀ d, effPriority c1 d = effPriority c2 d) :
    cmpEntry c1 = cmpEntry c2 := by
  funext a b
  unfold cmpEntry
  rw [hPr a.source, hPr b.source]

theorem search_congr (c1 c2 : Int → Option (Bool × Int))
    (hEn : ∀ d, rowEnabled c1 d = rowEnabled c2 d)
    (hPr : ∀ d, effPriority c1 d = effPriority c2 d) (ext : Externals)
    (store : List Char → List StoredRow) (text : List Char) (off : Nat) :
    search ext c1 store text off = search ext c2 store text off := by
  unfold search
  rw [searchState_congr c1 c2 hEn, cmpEntry_congr c1 c2 hPr]

/-- C10: a record row whose dictionary id has no entry in the
configuration map is treated exactly as if it were configured enabled
with priority 999: extending the map that way changes nothing, and on a
concrete run with an empty configuration the row of the unconfigured
dictionary 7 appears in the results. -/
theorem c10_unconfigured_dict :
    (∀ (ext : Externals) (configs : Int → Option (Bool × Int))
        (store : List Char → List StoredRow) (text : List Char) (off : Nat)
        (d : Int), configs d = none →
        search ext configs store text off
          = search ext (fun x => if x = d then some (true, 999) else configs x)
              store text off)
    ∧ (search c8Ext noConfigs c8Store "あxy".toList 0).map (fun e => e.1.source)
        = [7] := by
  constructor
  · intro ext configs store text off d hd
    apply search_congr
    · intro x
      by_cases hx : x = d
      · subst hx
        simp [rowEnabled, hd]
      · simp [rowEnabled, hx]
    · intro x
      by_cases hx : x = d
      · subst hx
        simp [effPriority, hd]
      · simp [effPriority, hx]
  · decide

/-- Witness for c10_unconfigured_dict at the concrete run with an empty
configuration map and dictionary id 7. -/
theorem c10_witness :
    search c8Ext noConfigs c8Store "あxy".toList 0
      = search c8Ext (fun x => if x = 7 then some (true, 999) else noConfigs x)
          c8Store "あxy".toList 0 :=
  c10_unconfigured_dict.1 c8Ext noConfigs c8Store "あxy".toList 0 7 rfl

/- Claim C1: the kanji-overlap validity filter. -/

/-- A candidate that passes the validity filter under a CJK script either
has no ideographs or shares one with the substring it was generated
from. -/
theorem is_valid_shares (substring w : List Char) (script : Script)
    (hsc : script = Script.japanese ∨ script = Script.chinese)
    (hv : is_valid_candidate substring w script = true)
    (k : Char) (hk : k ∈ w) (hki : is_ideograph k = true) :
    ∃ k2, is_ideograph k2 = true ∧ k2 ∈ w ∧ k2 ∈ substring := by
  unfold is_valid_candidate at hv
  by_cases he : substring = w
  · exact ⟨k, hki, hk, he ▸ hk⟩
  · have he2 : (substring == w) = false := beq_eq_false_iff_ne.mpr he
    rw [he2] at hv
    simp only [Bool.false_eq_true, if_false] at hv
    have hfilter : (w.filter is_ideograph).isEmpty = false := by
      have : k ∈ w.filter is_ideograph := List.mem_filter.mpr ⟨hk, hki⟩
      rcases hf : w.filter is_ideograph with - | ⟨x, xs⟩
      · rw [hf] at this
        cases this
      · rfl
    rcases hsc with rfl | rfl
    all_goals
      rw [hfilter] at hv
      simp only [Bool.not_false, if_true] at hv
      rw [List.any_eq_true] at hv
      obtain ⟨k2, hk2f, hk2c⟩ := hv
      have hk2 := List.mem_filter.mp hk2f
      have hk2s : k2 ∈ substring.filter is_ideograph :=
        List.mem_of_elem_eq_true hk2c
      exact ⟨k2, hk2.2, hk2.1, (List.mem_filter.mp hk2s).1⟩

/-- The C1 result invariant: every result word with an ideograph shares
one with the 24-character window. -/
def kanjiOkState (window : List Char) (st : SearchState) : Prop :=
  ∀ e ∈ st.results, ∀ k ∈ (e : RecordEntry × Option (List String)).1.word,
    is_ideograph k = true →
      ∃ k2, is_ideograph k2 = true ∧ k2 ∈ e.1.word ∧ k2 ∈ window

theorem processCandidate_kanjiOk (configs : Int → Option (Bool × Int))
    (store : List Char → List StoredRow) (script : Script)
    (substring window : List Char) (st : SearchState) (cand : Candidate)
    (hsc : script = Script.japanese ∨ script = Script.chinese)
    (hsub : ∀ x ∈ substring, x ∈ window)
    (h : kanjiOkState window st) :
    kanjiOkState window (processCandidate configs store script substring st cand) := by
  unfold processCandidate
  split_ifs with h1 h2
  · exact h
  · exact h
  · intro e he k hk hki
    rcases List.mem_append.mp he with he | he
    · exact h e he k hk hki
    · obtain ⟨hw, -⟩ := mem_processRows configs _ _ _ e he
      have hv : is_valid_candidate substring cand.word script = true := by
        rcases hx : is_valid_candidate substring cand.word script with - | -
        · exact absurd hx h1
        · rfl
      obtain ⟨k2, ha, hb, hc⟩ :=
        is_valid_shares substring cand.word script hsc hv k (hw ▸ hk) hki
      exact ⟨k2, ha, hw ▸ hb, hsub k2 hc⟩

/-- C1 (amended): a multi-character Chinese/Japanese candidate that
contains ideographs but shares none of them with the original substring
is rejected by the validity filter; consequently, when the search window
is detected as Japanese or Chinese, every word in the returned results
either contains no ideograph or shares at least one ideograph with the
24-character search window. -/
theorem c1_kanji_filter :
    (∀ (source cand : List Char) (script : Script),
        (script = Script.japanese ∨ script = Script.chinese) →
        2 ≤ cand.length →
        (∃ k ∈ cand, is_ideograph k = true) →
        (∀ k ∈ cand, is_ideograph k = true → k ∉ source) →
        is_valid_candidate source cand script = false)
    ∧ (∀ (ext : Externals) (configs : Int → Option (Bool × Int))
        (store : List Char → List StoredRow) (text : List Char) (off : Nat),
        (detect_script ((dropToBoundary text off).take 24) = Script.japanese
          ∨ detect_script ((dropToBoundary text off).take 24) = Script.chinese) →
        ∀ e ∈ search ext configs store text off,
          ∀ k ∈ (e : RecordEntry × Option (List String)).1.word,
            is_ideograph k = true →
              ∃ k2, is_ideograph k2 = true ∧ k2 ∈ e.1.word
                ∧ k2 ∈ (dropToBoundary text off).take 24) := by
  constructor
  · intro source cand script hsc hlen hex hall
    obtain ⟨k0, hk0, hk0i⟩ := hex
    unfold is_valid_candidate
    have hne : (source == cand) = false := by
      rw [beq_eq_false_iff_ne]
      rintro rfl
      exact hall k0 hk0 hk0i hk0
    rw [hne]
    simp only [Bool.false_eq_true, if_false]
    have hfilter : (cand.filter is_ideograph).isEmpty = false := by
      have : k0 ∈ cand.filter is_ideograph := List.mem_filter.mpr ⟨hk0, hk0i⟩
      rcases hf : cand.filter is_ideograph with - | ⟨x, xs⟩
      · rw [hf] at this
        cases this
      · rfl
    rcases hsc with rfl | rfl
    all_goals
      rw [hfilter]
      simp only [Bool.not_false, if_true]
      rw [List.any_eq_false]
      intro k hkf hkc
      have hkm := List.mem_filter.mp hkf
      have hks : k ∈ source.filter is_ideograph :=
        List.mem_of_elem_eq_true hkc
      exact hall k hkm.1 hkm.2 (List.mem_filter.mp hks).1
  · intro ext configs store text off hsc e he k hk hki
    have hst : kanjiOkState ((dropToBoundary text off).take 24)
        (searchState ext configs store text off) := by
      refine searchState_preserve ext configs store text off
        (kanjiOkState ((dropToBoundary text off).take 24))
        (fun e he => absurd he (List.not_mem_nil e)) ?_
      intro substring st h hsub
      exact foldl_preserve _ (kanjiOkState ((dropToBoundary text off).take 24))
        (fun st2 cand h2 =>
          processCandidate_kanjiOk configs store _ substring _ st2 cand hsc
            hsub h2) _ st h
    have hperm : List.Perm (search ext configs store text off)
        (searchState ext configs store text off).results :=
      List.perm_insertionSort _ _
    exact hst e (hperm.mem_iff.mp he) k hk hki

-- fixtures for the C1 counterexample: Japanese window "食べ"; the
-- tokenizer lemma for it is "食本", which contains the ideograph 本
-- absent from the window but shares 食 with it; the store knows 食本.
def c1Ext : Externals :=
  ⟨fun t => if t = "食べ".toList then some ("食本".toList, 1) else none,
   fun l => l⟩

def c1Store : List Char → List StoredRow :=
  fun w => if w = "食本".toList then [⟨4, ⟨4, none, .otherRecord, none⟩⟩]
    else []

/-- C1 counterexample: the multi-character candidate "食本" contains the
ideograph 本, absent from the substring "食べ", yet passes the validity
filter (it shares 食) and appears in the returned results. -/
theorem c1_counterexample :
    is_valid_candidate "食べ".toList "食本".toList Script.japanese = true
    ∧ ("食本".toList).length = 2
    ∧ is_ideograph '本' = true
    ∧ ¬ ('本' ∈ "食べ".toList)
    ∧ (search c1Ext noConfigs c1Store "食べ".toList 0).map (fun e => e.1.word)
        = ["食本".toList] := by
  refine ⟨by decide, by decide, by decide, by decide, by decide⟩

/-- Witness for c1_kanji_filter's first part at a concrete rejected
candidate, and for its second part on the concrete counterexample run. -/
theorem c1_witness :
    is_valid_candidate "食べ".toList "本体".toList Script.japanese = false :=
  c1_kanji_filter.1 "食べ".toList "本体".toList Script.japanese
    (Or.inl rfl) (by decide) ⟨'本', by decide, by decide⟩ (by decide)

/- Part 4: the condition flag table builder, fn build_condition_flags of
   transformer.rs.  The input HashMap is modelled as an association list
   with duplicate-free keys (HashMap keys are unique); its iteration
   order becomes the list order, and the claims are settled for every
   order.  HashMap::insert on a fresh key is modelled by prepending. -/

/-- Rust: struct ConditionDefinition (transformer.rs). -/
structure ConditionDefinition where
  sub_conditions : Option (List String)
deriving DecidableEq

def keysOf {α : Type} (l : List (String × α)) : List String := l.map Prod.fst

/-- HashMap::get on the flags map. -/
def lookupFlag (flags : List (String × Nat)) (k : String) : Option Nat :=
  (flags.find? (fun p => p.1 == k)).map (fun p => p.2)

/-- HashMap::get on the conditions map. -/
def lookupCond (m : List (String × ConditionDefinition)) (k : String) :
    Option ConditionDefinition :=
  (m.find? (fun p => p.1 == k)).map (fun p => p.2)

/-- The accumulator loop of fn get_condition_flags_strict. -/
def gcfsAux (flags : List (String × Nat)) : Nat → List String → Option Nat
  | acc, [] => some acc
  | acc, t :: ts =>
    match lookupFlag flags t with
    | some f => gcfsAux flags (acc ||| f) ts
    | none => none

/-- Rust: fn get_condition_flags_strict (transformer.rs). -/
def get_condition_flags_strict (flags : List (String × Nat))
    (condition_types : List String) : Option Nat :=
  gcfsAux flags 0 condition_types

/-- One pass of the `for (key, condition) in targets` loop of
build_condition_flags: returns the extended flags map, the next free bit
index, and the still-unresolved targets in order. -/
def sweepConds :
    List (String × ConditionDefinition) → List (String × Nat) → Nat →
      Except String (List (String × Nat) × Nat × List (String × ConditionDefinition))
  | [], flags, idx => .ok (flags, idx, [])
  | (key, cond) :: rest, flags, idx =>
    match cond.sub_conditions with
    | some subs =>
      match get_condition_flags_strict flags subs with
      | some f => sweepConds rest ((key, f) :: flags) idx
      | none =>
        match sweepConds rest flags idx with
        | .ok r => .ok (r.1, r.2.1, (key, cond) :: r.2.2)
        | .error e => .error e
    | none =>
      if 32 ≤ idx then .error "Maximum number of conditions exceeded"
      else sweepConds rest ((key, 1 <<< idx) :: flags) (idx + 1)

/-- The `while !targets.is_empty()` loop.  The Nat is fuel: starting it
at the number of conditions is enough because each non-erroring sweep
strictly shrinks the targets (otherwise the cycle error fires), so the
0-fuel-with-targets-left case is unreachable from build_condition_flags;
it is mapped to the cycle error. -/
def buildLoop :
    Nat → List (String × ConditionDefinition) → List (String × Nat) → Nat →
      Except String (List (String × Nat))
  | _, [], flags, _ => .ok flags
  | 0, _ :: _, _, _ => .error "Cycle detected in condition flags"
  | n + 1, target :: targets, flags, idx =>
    match sweepConds (target :: targets) flags idx with
    | .error e => .error e
    | .ok r =>
      if r.2.2.length = (target :: targets).length then
        .error "Cycle detected in condition flags"
      else buildLoop n r.2.2 r.1 r.2.1

/-- Rust: fn build_condition_flags (transformer.rs). -/
def build_condition_flags (conditions : List (String × ConditionDefinition)) :
    Except String (List (String × Nat)) :=
  buildLoop conditions.length conditions [] 0

/-- A condition name is resolvable when its definition bottoms out:
leaves are resolvable, and a composite is resolvable when all its
sub-conditions are.  A cycle or a dangling reference makes a name
unresolvable. -/
inductive Resolvable (m : List (String × ConditionDefinition)) : String → Prop where
  | leaf (k : String) : lookupCond m k = some ⟨none⟩ → Resolvable m k
  | comp (k : String) (subs : List String) :
      lookupCond m k = some ⟨some subs⟩ →
      (∀ s ∈ subs, Resolvable m s) → Resolvable m k

/-- The number of leaf conditions (each of which needs its own bit). -/
def leafCount (m : List (String × ConditionDefinition)) : Nat :=
  (m.filter (fun p => p.2.sub_conditions.isNone)).length

-- basic sanity of the builder
example :
    build_condition_flags [("v", ⟨none⟩), ("adj", ⟨none⟩),
      ("word", ⟨some ["v", "adj"]⟩)]
      = .ok [("word", 3), ("adj", 2), ("v", 1)] := by rfl
example :
    build_condition_flags [("A", ⟨some ["B"]⟩), ("B", ⟨some ["A"]⟩)]
      = .error "Cycle detected in condition flags" := by rfl
example :
    build_condition_flags [("A", ⟨some ["B"]⟩)]
      = .error "Cycle detected in condition flags" := by rfl

-- lookup lemmas for the association-list maps

theorem lookupFlag_cons_self (k : String) (f : Nat) (flags : List (String × Nat)) :
    lookupFlag ((k, f) :: flags) k = some f := by
  simp [lookupFlag, List.find?]

theorem lookupFlag_cons_ne (k0 : String) (f0 : Nat) (flags : List (String × Nat))
    (k : String) (h : k ≠ k0) :
    lookupFlag ((k0, f0) :: flags) k = lookupFlag flags k := by
  have : (k0 == k) = false := by
    simp only [beq_eq_false_iff_ne, ne_eq]
    exact fun e => h e.symm
  simp [lookupFlag, List.find?, this]

theorem lookupFlag_some_mem_keys (flags : List (String × Nat)) (k : String) (v : Nat)
    (h : lookupFlag flags k = some v) : k ∈ keysOf flags := by
  induction flags with
  | nil => simp [lookupFlag] at h
  | cons p rest ih =>
    by_cases hk : p.1 = k
    · simp [keysOf, hk]
    · have hb : (p.1 == k) = false := by simpa using hk
      simp only [lookupFlag, List.find?, hb] at h
      have := ih h
      simp [keysOf] at this ⊢
      exact Or.inr this

theorem lookupFlag_mem_keys_some (flags : List (String × Nat)) (k : String)
    (h : k ∈ keysOf flags) : ∃ v, lookupFlag flags k = some v := by
  induction flags with
  | nil => simp [keysOf] at h
  | cons p rest ih =>
    by_cases hk : p.1 = k
    · exact ⟨p.2, by simp [lookupFlag, List.find?, hk]⟩
    · have hb : (p.1 == k) = false := by simpa using hk
      simp only [lookupFlag, List.find?, hb]
      refine ih ?_
      simp [keysOf] at h
      rcases h with h | h
      · exact absurd h.symm hk
      · simpa [keysOf] using h

theorem lookupFlag_of_mem (flags : List (String × Nat)) (k : String) (f : Nat)
    (hnd : (keysOf flags).Nodup) (hmem : (k, f) ∈ flags) :
    lookupFlag flags k = some f := by
  induction flags with
  | nil => simp at hmem
  | cons p rest ih =>
    simp only [keysOf, List.map_cons, List.nodup_cons] at hnd
    rcases List.mem_cons.1 hmem with h | h
    · subst h
      exact lookupFlag_cons_self k f rest
    · have hk : k ≠ p.1 := by
        intro e
        exact hnd.1 (e ▸ (List.mem_map.2 ⟨(k, f), h, rfl⟩))
      rw [show p = (p.1, p.2) from rfl, lookupFlag_cons_ne p.1 p.2 rest k hk]
      exact ih hnd.2 h

theorem mem_of_lookupFlag (flags : List (String × Nat)) (k : String) (v : Nat)
    (h : lookupFlag flags k = some v) : (k, v) ∈ flags := by
  induction flags with
  | nil => simp [lookupFlag] at h
  | cons p rest ih =>
    by_cases hk : p.1 = k
    · simp [lookupFlag, List.find?, hk] at h
      have : p = (k, v) := Prod.ext hk h
      exact this ▸ List.mem_cons_self p rest
    · have hb : (p.1 == k) = false := by simpa using hk
      simp only [lookupFlag, List.find?, hb] at h
      exact List.mem_cons_of_mem _ (ih h)

theorem lookupCond_of_mem (m : List (String × ConditionDefinition)) (k : String)
    (d : ConditionDefinition)
    (hnd : (keysOf m).Nodup) (hmem : (k, d) ∈ m) :
    lookupCond m k = some d := by
  induction m with
  | nil => simp at hmem
  | cons p rest ih =>
    simp only [keysOf, List.map_cons, List.nodup_cons] at hnd
    rcases List.mem_cons.1 hmem with h | h
    · subst h
      simp [lookupCond, List.find?]
    · have hk : (p.1 == k) = false := by
        simp only [beq_eq_false_iff_ne, ne_eq]
        intro e
        exact hnd.1 (e ▸ (List.mem_map.2 ⟨(k, d), h, rfl⟩))
      simp only [lookupCond, List.find?, hk]
      exact ih hnd.2 h

theorem lookupCond_some_mem (m : List (String × ConditionDefinition)) (k : String)
    (d : ConditionDefinition) (h : lookupCond m k = some d) :
    (k, d) ∈ m ∧ k ∈ keysOf m := by
  induction m with
  | nil => simp [lookupCond] at h
  | cons p rest ih =>
    by_cases hk : p.1 = k
    · simp [lookupCond, List.find?, hk] at h
      constructor
      · have : p = (k, d) := Prod.ext hk h
        exact this ▸ List.mem_cons_self p rest
      · simp [keysOf, hk]
    · have hb : (p.1 == k) = false := by simpa using hk
      simp only [lookupCond, List.find?, hb] at h
      rcases ih h with ⟨h1, h2⟩
      exact ⟨List.mem_cons_of_mem _ h1, by simp [keysOf] at h2 ⊢; exact Or.inr h2⟩

-- get_condition_flags_strict behaves pointwise in the flags map

theorem gcfsAux_congr (fl1 fl2 : List (String × Nat)) (subs : List String)
    (h : ∀ s ∈ subs, lookupFlag fl1 s = lookupFlag fl2 s) :
    ∀ acc, gcfsAux fl1 acc subs = gcfsAux fl2 acc subs := by
  induction subs with
  | nil => intro acc; rfl
  | cons t ts ih =>
    intro acc
    have ht := h t (List.mem_cons_self t ts)
    have hrest : ∀ s ∈ ts, lookupFlag fl1 s = lookupFlag fl2 s :=
      fun s hs => h s (List.mem_cons_of_mem t hs)
    simp only [gcfsAux, ht]
    cases lookupFlag fl2 t with
    | none => rfl
    | some f => exact ih hrest (acc ||| f)

theorem gcfsAux_some_keys (flags : List (String × Nat)) (subs : List String) :
    ∀ acc f, gcfsAux flags acc subs = some f → ∀ s ∈ subs, s ∈ keysOf flags := by
  induction subs with
  | nil => intro acc f _ s hs; simp at hs
  | cons t ts ih =>
    intro acc f h s hs
    rcases hl : lookupFlag flags t with _ | v
    · simp [gcfsAux, hl] at h
    · rcases List.mem_cons.1 hs with h1 | h1
      · exact h1 ▸ lookupFlag_some_mem_keys flags t v hl
      · simp only [gcfsAux, hl] at h
        exact ih (acc ||| v) f h s h1

theorem gcfsAux_total (flags : List (String × Nat)) (subs : List String)
    (h : ∀ s ∈ subs, s ∈ keysOf flags) :
    ∀ acc, ∃ f, gcfsAux flags acc subs = some f := by
  induction subs with
  | nil => intro acc; exact ⟨acc, rfl⟩
  | cons t ts ih =>
    intro acc
    rcases lookupFlag_mem_keys_some flags t (h t (List.mem_cons_self t ts)) with ⟨v, hv⟩
    have hrest : ∀ s ∈ ts, s ∈ keysOf flags := fun s hs => h s (List.mem_cons_of_mem t hs)
    rcases ih hrest (acc ||| v) with ⟨f, hf⟩
    exact ⟨f, by simp only [gcfsAux, hv]; exact hf⟩

/-- A conservative extension of the flags map (new keys only) leaves
every already-successful strict resolution unchanged. -/
theorem gcfs_extend (flags : List (String × Nat)) (k0 : String) (f0 : Nat)
    (hk0 : k0 ∉ keysOf flags) (subs : List String) (f : Nat)
    (h : get_condition_flags_strict flags subs = some f) :
    get_condition_flags_strict ((k0, f0) :: flags) subs = some f := by
  have hkeys := gcfsAux_some_keys flags subs 0 f h
  have hcongr : ∀ s ∈ subs, lookupFlag ((k0, f0) :: flags) s = lookupFlag flags s := by
    intro s hs
    have hne : s ≠ k0 := fun e => hk0 (e ▸ hkeys s hs)
    exact lookupFlag_cons_ne k0 f0 flags s hne
  unfold get_condition_flags_strict at h ⊢
  rw [gcfsAux_congr _ _ subs hcongr 0]
  exact h

/-- p names a leaf condition of m. -/
def LeafAt (m : List (String × ConditionDefinition)) (k : String) : Prop :=
  ∃ d, lookupCond m k = some d ∧ d.sub_conditions = none

/-- Invariant of the partially built flags map: keys are unique and
resolvable, each leaf entry is a single bit below the running index,
each composite entry is the strict OR of its sub-conditions over the
map itself, and distinct leaves hold distinct values. -/
def FlagsOk (m : List (String × ConditionDefinition))
    (flags : List (String × Nat)) (idx : Nat) : Prop :=
  (keysOf flags).Nodup
  ∧ (∀ p ∈ flags, Resolvable m p.1)
  ∧ (∀ p ∈ flags, ∃ d, lookupCond m (Prod.fst p) = some d
      ∧ (d.sub_conditions = none → ∃ i, i < idx ∧ p.2 = 1 <<< i)
      ∧ (∀ subs, d.sub_conditions = some subs →
          get_condition_flags_strict flags subs = some p.2))
  ∧ (∀ p ∈ flags, ∀ q ∈ flags, LeafAt m p.1 → LeafAt m q.1 →
      p.2 = q.2 → p.1 = q.1)

theorem one_shiftLeft_inj (a b : Nat) (h : 1 <<< a = 1 <<< b) : a = b := by
  have h2 : 2 ^ a = 2 ^ b := by simpa [Nat.one_shiftLeft] using h
  exact Nat.pow_right_injective (le_refl 2) h2

theorem FlagsOk_nil (m : List (String × ConditionDefinition)) (idx : Nat) :
    FlagsOk m [] idx := by
  refine ⟨List.nodup_nil, ?_, ?_, ?_⟩ <;> intro p hp <;> simp at hp

theorem FlagsOk_insert_leaf (m : List (String × ConditionDefinition))
    (flags : List (String × Nat)) (idx : Nat) (k : String)
    (hok : FlagsOk m flags idx) (hfresh : k ∉ keysOf flags)
    (hdef : lookupCond m k = some ⟨none⟩) :
    FlagsOk m ((k, 1 <<< idx) :: flags) (idx + 1) := by
  obtain ⟨hnd, hres, hpack, hinj⟩ := hok
  refine ⟨?_, ?_, ?_, ?_⟩
  · exact List.nodup_cons.2 ⟨hfresh, hnd⟩
  · intro p hp
    rcases List.mem_cons.1 hp with h | h
    · rw [h]; exact Resolvable.leaf k hdef
    · exact hres p h
  · intro p hp
    rcases List.mem_cons.1 hp with h | h
    · subst h
      refine ⟨⟨none⟩, hdef, fun _ => ⟨idx, Nat.lt_succ_self idx, rfl⟩, ?_⟩
      intro subs hsubs
      simp at hsubs
    · rcases hpack p h with ⟨d, hd, hleaf, hcomp⟩
      refine ⟨d, hd, ?_, ?_⟩
      · intro hn
        rcases hleaf hn with ⟨i, hi, he⟩
        exact ⟨i, Nat.lt_succ_of_lt hi, he⟩
      · intro subs hsubs
        exact gcfs_extend flags k (1 <<< idx) hfresh subs p.2 (hcomp subs hsubs)
  · intro p hp q hq hlp hlq heq
    rcases List.mem_cons.1 hp with h1 | h1 <;> rcases List.mem_cons.1 hq with h2 | h2
    · rw [h1, h2]
    · exfalso
      subst h1
      rcases hlq with ⟨d, hd, hn⟩
      rcases hpack q h2 with ⟨d2, hd2, hleaf2, _⟩
      have hde : d2 = d := by
        have := hd2.symm.trans hd
        exact Option.some.inj this
      rcases hleaf2 (hde ▸ hn) with ⟨i, hi, he⟩
      have : idx = i := one_shiftLeft_inj idx i (heq.trans he)
      omega
    · exfalso
      subst h2
      rcases hlp with ⟨d, hd, hn⟩
      rcases hpack p h1 with ⟨d2, hd2, hleaf2, _⟩
      have hde : d2 = d := by
        have := hd2.symm.trans hd
        exact Option.some.inj this
      rcases hleaf2 (hde ▸ hn) with ⟨i, hi, he⟩
      have : i = idx := one_shiftLeft_inj i idx (he.symm.trans heq)
      omega
    · exact hinj p h1 q h2 hlp hlq heq

theorem FlagsOk_insert_comp (m : List (String × ConditionDefinition))
    (flags : List (String × Nat)) (idx : Nat) (k : String) (subs : List String) (f : Nat)
    (hok : FlagsOk m flags idx) (hfresh : k ∉ keysOf flags)
    (hdef : lookupCond m k = some ⟨some subs⟩)
    (hgot : get_condition_flags_strict flags subs = some f) :
    FlagsOk m ((k, f) :: flags) idx := by
  obtain ⟨hnd, hres, hpack, hinj⟩ := hok
  have hsubkeys : ∀ s ∈ subs, s ∈ keysOf flags :=
    gcfsAux_some_keys flags subs 0 f hgot
  refine ⟨?_, ?_, ?_, ?_⟩
  · exact List.nodup_cons.2 ⟨hfresh, hnd⟩
  · intro p hp
    rcases List.mem_cons.1 hp with h | h
    · rw [h]
      refine Resolvable.comp k subs hdef ?_
      intro s hs
      rcases lookupFlag_mem_keys_some flags s (hsubkeys s hs) with ⟨v, hv⟩
      exact hres (s, v) (mem_of_lookupFlag flags s v hv)
    · exact hres p h
  · intro p hp
    rcases List.mem_cons.1 hp with h | h
    · subst h
      refine ⟨⟨some subs⟩, hdef, ?_, ?_⟩
      · intro hn; simp at hn
      · intro subs' hsubs'
        have he : subs = subs' := Option.some.inj hsubs'
        exact he ▸ gcfs_extend flags k f hfresh subs f hgot
    · rcases hpack p h with ⟨d, hd, hleaf, hcomp⟩
      refine ⟨d, hd, hleaf, ?_⟩
      intro subs' hsubs'
      exact gcfs_extend flags k f hfresh subs' p.2 (hcomp subs' hsubs')
  · intro p hp q hq hlp hlq heq
    rcases List.mem_cons.1 hp with h1 | h1 <;> rcases List.mem_cons.1 hq with h2 | h2
    · rw [h1, h2]
    · exfalso
      subst h1
      rcases hlp with ⟨d, hd, hn⟩
      have : d = ⟨some subs⟩ := Option.some.inj (hd.symm.trans hdef)
      rw [this] at hn
      simp at hn
    · exfalso
      subst h2
      rcases hlq with ⟨d, hd, hn⟩
      have : d = ⟨some subs⟩ := Option.some.inj (hd.symm.trans hdef)
      rw [this] at hn
      simp at hn
    · exact hinj p h1 q h2 hlp hlq heq

/-- A target the sweep can resolve against the current flags map. -/
def ReadyAt (flags : List (String × Nat)) (p : String × ConditionDefinition) : Prop :=
  p.2.sub_conditions = none ∨
  ∃ subs f, p.2.sub_conditions = some subs ∧
    get_condition_flags_strict flags subs = some f

theorem leafCount_cons (p : String × ConditionDefinition)
    (rest : List (String × ConditionDefinition)) :
    leafCount (p :: rest) =
      (if p.2.sub_conditions.isNone then 1 else 0) + leafCount rest := by
  unfold leafCount
  cases h : p.2.sub_conditions <;> simp [List.filter, h, Nat.add_comm]

theorem leafCount_eq_zero (l : List (String × ConditionDefinition))
    (h : ∀ p ∈ l, p.2.sub_conditions ≠ none) : leafCount l = 0 := by
  unfold leafCount
  rw [List.filter_eq_nil_iff.2]
  · rfl
  · intro p hp
    cases hs : p.2.sub_conditions with
    | none => exact absurd hs (h p hp)
    | some s => simp [hs]

/-- Success of one sweep: with unique target keys disjoint from the
flags map, targets read off the definitions, a sound flags map, and
room for every leaf below bit 32, the sweep succeeds; the unresolved
remainder is a composite-only sublist, the bit index grows by exactly
the number of leaves, the flags invariant is maintained, resolved keys
move from targets to flags, old lookups are preserved, and every target
that was already resolvable against the incoming map is resolved. -/
theorem sweep_ok (m : List (String × ConditionDefinition)) :
    ∀ (targets : List (String × ConditionDefinition))
      (flags : List (String × Nat)) (idx : Nat),
    (keysOf targets).Nodup →
    (∀ k, k ∈ keysOf targets → k ∉ keysOf flags) →
    (∀ p ∈ targets, lookupCond m p.1 = some p.2) →
    FlagsOk m flags idx →
    idx + leafCount targets ≤ 32 →
    ∃ flags2 idx2 next,
      sweepConds targets flags idx = .ok (flags2, idx2, next)
      ∧ next.Sublist targets
      ∧ (∀ p ∈ next, p.2.sub_conditions ≠ none)
      ∧ idx2 = idx + leafCount targets
      ∧ FlagsOk m flags2 idx2
      ∧ (∀ k, k ∈ keysOf flags2 ↔
          k ∈ keysOf flags ∨ (k ∈ keysOf targets ∧ k ∉ keysOf next))
      ∧ (∀ s v, lookupFlag flags s = some v → lookupFlag flags2 s = some v)
      ∧ (∀ p ∈ targets, ReadyAt flags p → p ∉ next) := by
  intro targets
  induction targets with
  | nil =>
    intro flags idx _ _ _ hok _
    refine ⟨flags, idx, [], rfl, List.Sublist.refl _, ?_, ?_, hok, ?_, ?_, ?_⟩
    · intro p hp; simp at hp
    · simp [leafCount]
    · intro k
      constructor
      · exact fun h => Or.inl h
      · rintro (h | ⟨h, _⟩)
        · exact h
        · simp [keysOf] at h
    · exact fun s v h => h
    · intro p hp; simp at hp
  | cons hd rest ih =>
    intro flags idx hnd hdisj hagree hok hroom
    obtain ⟨key, cond⟩ := hd
    have hndr : (keysOf rest).Nodup := by
      simp only [keysOf, List.map_cons, List.nodup_cons] at hnd
      exact hnd.2
    have hkeyrest : key ∉ keysOf rest := by
      simp only [keysOf, List.map_cons, List.nodup_cons] at hnd
      exact hnd.1
    have hkeyflags : key ∉ keysOf flags := by
      refine hdisj key ?_
      simp [keysOf]
    have hheaddef : lookupCond m key = some cond :=
      hagree (key, cond) (List.mem_cons_self _ _)
    have hagreer : ∀ p ∈ rest, lookupCond m p.1 = some p.2 :=
      fun p hp => hagree p (List.mem_cons_of_mem _ hp)
    have hheadnotinrest : (key, cond) ∉ rest := by
      intro h
      exact hkeyrest (List.mem_map.2 ⟨(key, cond), h, rfl⟩)
    cases hsub : cond.sub_conditions with
    | none =>
      -- a leaf target: always resolved, consuming one bit
      have hcond : cond = ⟨none⟩ := by
        cases cond; simp at hsub; rw [hsub]
      have hlc : leafCount ((key, cond) :: rest) = 1 + leafCount rest := by
        rw [leafCount_cons]; simp [hsub]
      have hidx : ¬ 32 ≤ idx := by omega
      have hdisj' : ∀ k, k ∈ keysOf rest → k ∉ keysOf ((key, 1 <<< idx) :: flags) := by
        intro k hk
        simp only [keysOf, List.map_cons, List.mem_cons]
        rintro (h | h)
        · exact hkeyrest (h ▸ hk)
        · exact hdisj k
            (by simp only [keysOf, List.map_cons, List.mem_cons]; exact Or.inr hk) h
      have hok' : FlagsOk m ((key, 1 <<< idx) :: flags) (idx + 1) :=
        FlagsOk_insert_leaf m flags idx key hok hkeyflags (hcond ▸ hheaddef)
      have hroom' : idx + 1 + leafCount rest ≤ 32 := by omega
      obtain ⟨flags2, idx2, next, heval, hsl, hcomp, hidx2, hok2, hkeys2, hmono2, hready2⟩ :=
        ih ((key, 1 <<< idx) :: flags) (idx + 1) hndr hdisj' hagreer hok' hroom'
      refine ⟨flags2, idx2, next, ?_, hsl.cons _, hcomp, by omega, hok2, ?_, ?_, ?_⟩
      · simp only [sweepConds, hsub]
        rw [if_neg hidx]
        exact heval
      · intro k
        rw [hkeys2 k]
        simp only [keysOf, List.map_cons, List.mem_cons]
        constructor
        · rintro ((h | h) | ⟨h1, h2⟩)
          · refine Or.inr ⟨Or.inl h, ?_⟩
            intro hkn
            have : key ∈ keysOf rest := (List.Sublist.map Prod.fst hsl).mem (h ▸ hkn)
            exact hkeyrest this
          · exact Or.inl h
          · exact Or.inr ⟨Or.inr h1, h2⟩
        · rintro (h | ⟨h1 | h1, h2⟩)
          · exact Or.inl (Or.inr h)
          · exact Or.inl (Or.inl h1)
          · exact Or.inr ⟨h1, h2⟩
      · intro s v hv
        refine hmono2 s v ?_
        have hs : s ≠ key := by
          intro e
          exact hkeyflags (e ▸ lookupFlag_some_mem_keys flags s v hv)
        rw [lookupFlag_cons_ne key (1 <<< idx) flags s hs]
        exact hv
      · intro p hp _
        rcases List.mem_cons.1 hp with h | h
        · subst h
          intro hn
          exact hheadnotinrest (hsl.mem hn)
        · refine hready2 p h ?_
          rcases List.mem_cons.1 hp with he | _
          · subst he
            exact Or.inl hsub
          · rcases (show ReadyAt flags p from by assumption) with h1 | ⟨subs, f, h1, h2⟩
            · exact Or.inl h1
            · exact Or.inr ⟨subs, f, h1,
                gcfs_extend flags key (1 <<< idx) hkeyflags subs f h2⟩
    | some subs =>
      cases hres : get_condition_flags_strict flags subs with
      | some f =>
        -- a composite whose sub-conditions all resolve now
        have hlc : leafCount ((key, cond) :: rest) = leafCount rest := by
          rw [leafCount_cons]; simp [hsub]
        have hcond : cond = ⟨some subs⟩ := by
          cases cond; simp at hsub; rw [hsub]
        have hdisj' : ∀ k, k ∈ keysOf rest → k ∉ keysOf ((key, f) :: flags) := by
          intro k hk
          simp only [keysOf, List.map_cons, List.mem_cons]
          rintro (h | h)
          · exact hkeyrest (h ▸ hk)
          · exact hdisj k
              (by simp only [keysOf, List.map_cons, List.mem_cons]; exact Or.inr hk) h
        have hok' : FlagsOk m ((key, f) :: flags) idx :=
          FlagsOk_insert_comp m flags idx key subs f hok hkeyflags
            (hcond ▸ hheaddef) hres
        have hroom' : idx + leafCount rest ≤ 32 := by omega
        obtain ⟨flags2, idx2, next, heval, hsl, hcomp, hidx2, hok2, hkeys2, hmono2, hready2⟩ :=
          ih ((key, f) :: flags) idx hndr hdisj' hagreer hok' hroom'
        refine ⟨flags2, idx2, next, ?_, hsl.cons _, hcomp, by omega, hok2, ?_, ?_, ?_⟩
        · simp only [sweepConds, hsub, hres]
          exact heval
        · intro k
          rw [hkeys2 k]
          simp only [keysOf, List.map_cons, List.mem_cons]
          constructor
          · rintro ((h | h) | ⟨h1, h2⟩)
            · refine Or.inr ⟨Or.inl h, ?_⟩
              intro hkn
              have : key ∈ keysOf rest := (List.Sublist.map Prod.fst hsl).mem (h ▸ hkn)
              exact hkeyrest this
            · exact Or.inl h
            · exact Or.inr ⟨Or.inr h1, h2⟩
          · rintro (h | ⟨h1 | h1, h2⟩)
            · exact Or.inl (Or.inr h)
            · exact Or.inl (Or.inl h1)
            · exact Or.inr ⟨h1, h2⟩
        · intro s v hv
          refine hmono2 s v ?_
          have hs : s ≠ key := by
            intro e
            exact hkeyflags (e ▸ lookupFlag_some_mem_keys flags s v hv)
          rw [lookupFlag_cons_ne key f flags s hs]
          exact hv
        · intro p hp _
          rcases List.mem_cons.1 hp with h | h
          · subst h
            intro hn
            exact hheadnotinrest (hsl.mem hn)
          · refine hready2 p h ?_
            rcases (show ReadyAt flags p from by assumption) with h1 | ⟨subs', f', h1, h2⟩
            · exact Or.inl h1
            · exact Or.inr ⟨subs', f', h1,
                gcfs_extend flags key f hkeyflags subs' f' h2⟩
      | none =>
        -- a composite that must wait for a later sweep
        have hlc : leafCount ((key, cond) :: rest) = leafCount rest := by
          rw [leafCount_cons]; simp [hsub]
        have hroom' : idx + leafCount rest ≤ 32 := by omega
        obtain ⟨flags2, idx2, next, heval, hsl, hcomp, hidx2, hok2, hkeys2, hmono2, hready2⟩ :=
          ih flags idx hndr
            (fun k hk => hdisj k
              (by simp only [keysOf, List.map_cons, List.mem_cons]; exact Or.inr hk))
            hagreer hok hroom'
        refine ⟨flags2, idx2, (key, cond) :: next, ?_, hsl.cons₂ _, ?_, by omega,
          hok2, ?_, hmono2, ?_⟩
        · simp only [sweepConds, hsub, hres, heval]
        · intro p hp
          rcases List.mem_cons.1 hp with h | h
          · rw [h]; simp [hsub]
          · exact hcomp p h
        · intro k
          rw [hkeys2 k]
          simp only [keysOf, List.map_cons, List.mem_cons]
          constructor
          · rintro (h | ⟨h1, h2⟩)
            · exact Or.inl h
            · refine Or.inr ⟨Or.inr h1, ?_⟩
              rintro (h3 | h3)
              · exact hkeyrest (h3 ▸ h1)
              · exact h2 h3
          · rintro (h | ⟨h1 | h1, h2⟩)
            · exact Or.inl h
            · exfalso
              exact h2 (Or.inl h1)
            · refine Or.inr ⟨h1, fun h3 => h2 (Or.inr h3)⟩
        · intro p hp hready
          rcases List.mem_cons.1 hp with h | h
          · exfalso
            subst h
            rcases hready with h1 | ⟨subs', f', h1, h2⟩
            · rw [hsub] at h1; exact Option.noConfusion h1
            · rw [hsub] at h1
              have : subs = subs' := Option.some.inj h1
              rw [← this] at h2
              rw [hres] at h2
              exact Option.noConfusion h2
          · have hpn : p ∉ next := hready2 p h hready
            intro hmem
            rcases List.mem_cons.1 hmem with h3 | h3
            · subst h3
              exact hheadnotinrest h
            · exact hpn h3

theorem FlagsOk_mono (m : List (String × ConditionDefinition))
    (flags : List (String × Nat)) (idx idx' : Nat)
    (h : FlagsOk m flags idx) (hle : idx ≤ idx') : FlagsOk m flags idx' := by
  obtain ⟨hnd, hres, hpack, hinj⟩ := h
  refine ⟨hnd, hres, ?_, hinj⟩
  intro p hp
  rcases hpack p hp with ⟨d, hd, hleaf, hcomp⟩
  refine ⟨d, hd, ?_, hcomp⟩
  intro hn
  rcases hleaf hn with ⟨i, hi, he⟩
  exact ⟨i, by omega, he⟩

theorem resolvable_mem_keys (m : List (String × ConditionDefinition)) (k : String)
    (h : Resolvable m k) : k ∈ keysOf m := by
  cases h with
  | leaf _ hd => exact (lookupCond_some_mem m k _ hd).2
  | comp _ subs hd _ => exact (lookupCond_some_mem m k _ hd).2

theorem mem_keysOf_exists {α : Type} (l : List (String × α)) (k : String)
    (h : k ∈ keysOf l) : ∃ d, (k, d) ∈ l := by
  rcases List.mem_map.1 h with ⟨p, hp, he⟩
  exact ⟨p.2, by rw [← he]; exact hp⟩

/-- Once more than 32 bits would be needed, the sweep hits the
maximum-count error at the 33rd leaf. -/
theorem sweep_max_err (targets : List (String × ConditionDefinition)) :
    ∀ (flags : List (String × Nat)) (idx : Nat),
    idx ≤ 32 → 32 < idx + leafCount targets →
    sweepConds targets flags idx = .error "Maximum number of conditions exceeded" := by
  induction targets with
  | nil =>
    intro flags idx hle hlt
    exfalso
    simp [leafCount] at hlt
    omega
  | cons hd rest ih =>
    intro flags idx hle hlt
    obtain ⟨key, cond⟩ := hd
    rw [leafCount_cons] at hlt
    cases hsub : cond.sub_conditions with
    | none =>
      simp [hsub] at hlt
      by_cases h32 : 32 ≤ idx
      · simp only [sweepConds, hsub]
        rw [if_pos h32]
      · simp only [sweepConds, hsub]
        rw [if_neg h32]
        exact ih ((key, 1 <<< idx) :: flags) (idx + 1) (by omega) (by omega)
    | some subs =>
      simp [hsub] at hlt
      cases hres : get_condition_flags_strict flags subs with
      | some f =>
        simp only [sweepConds, hsub, hres]
        exact ih ((key, f) :: flags) idx hle (by omega)
      | none =>
        simp only [sweepConds, hsub, hres]
        rw [ih flags idx hle (by omega)]

/-- Error-side bookkeeping of one successful sweep: the extended flags
map still holds only resolvable keys, every unresolvable target is
carried into the remainder, and the remainder is a sublist. -/
theorem sweep_unresolvable (m : List (String × ConditionDefinition))
    (targets : List (String × ConditionDefinition)) :
    ∀ (flags : List (String × Nat)) (idx : Nat)
      (flags2 : List (String × Nat)) (idx2 : Nat)
      (next : List (String × ConditionDefinition)),
    sweepConds targets flags idx = .ok (flags2, idx2, next) →
    (∀ p ∈ targets, lookupCond m p.1 = some p.2) →
    (∀ p ∈ flags, Resolvable m p.1) →
    (∀ p ∈ flags2, Resolvable m p.1)
      ∧ (∀ p ∈ targets, ¬ Resolvable m p.1 → p ∈ next)
      ∧ next.Sublist targets := by
  induction targets with
  | nil =>
    intro flags idx flags2 idx2 next heval hagree hres
    simp only [sweepConds] at heval
    obtain ⟨h1, h2, h3⟩ : flags = flags2 ∧ idx = idx2 ∧ ([] : List (String × ConditionDefinition)) = next := by
      have := Except.ok.inj heval
      exact ⟨congrArg Prod.fst this, congrArg (fun r => r.2.1) this, congrArg (fun r => r.2.2) this⟩
    subst h1; subst h2; subst h3
    exact ⟨hres, fun p hp => absurd hp (List.not_mem_nil p), List.Sublist.refl _⟩
  | cons hd rest ih =>
    intro flags idx flags2 idx2 next heval hagree hres
    obtain ⟨key, cond⟩ := hd
    have hheaddef : lookupCond m key = some cond :=
      hagree (key, cond) (List.mem_cons_self _ _)
    have hagreer : ∀ p ∈ rest, lookupCond m p.1 = some p.2 :=
      fun p hp => hagree p (List.mem_cons_of_mem _ hp)
    cases hsub : cond.sub_conditions with
    | none =>
      have hcond : cond = ⟨none⟩ := by
        cases cond; simp at hsub; rw [hsub]
      have hkres : Resolvable m key := Resolvable.leaf key (hcond ▸ hheaddef)
      by_cases h32 : 32 ≤ idx
      · exfalso
        simp only [sweepConds, hsub] at heval
        rw [if_pos h32] at heval
        exact Except.noConfusion heval
      · simp only [sweepConds, hsub] at heval
        rw [if_neg h32] at heval
        have hres' : ∀ p ∈ (key, 1 <<< idx) :: flags, Resolvable m p.1 := by
          intro p hp
          rcases List.mem_cons.1 hp with h | h
          · rw [h]; exact hkres
          · exact hres p h
        obtain ⟨ha, hb, hc⟩ := ih _ _ _ _ _ heval hagreer hres'
        refine ⟨ha, ?_, hc.cons _⟩
        intro p hp hnr
        rcases List.mem_cons.1 hp with h | h
        · exfalso; rw [h] at hnr; exact hnr hkres
        · exact hb p h hnr
    | some subs =>
      cases hgf : get_condition_flags_strict flags subs with
      | some f =>
        simp only [sweepConds, hsub, hgf] at heval
        have hcond : cond = ⟨some subs⟩ := by
          cases cond; simp at hsub; rw [hsub]
        have hkres : Resolvable m key := by
          refine Resolvable.comp key subs (hcond ▸ hheaddef) ?_
          intro s hs
          have hsk : s ∈ keysOf flags := gcfsAux_some_keys flags subs 0 f hgf s hs
          rcases lookupFlag_mem_keys_some flags s hsk with ⟨v, hv⟩
          exact hres (s, v) (mem_of_lookupFlag flags s v hv)
        have hres' : ∀ p ∈ (key, f) :: flags, Resolvable m p.1 := by
          intro p hp
          rcases List.mem_cons.1 hp with h | h
          · rw [h]; exact hkres
          · exact hres p h
        obtain ⟨ha, hb, hc⟩ := ih _ _ _ _ _ heval hagreer hres'
        refine ⟨ha, ?_, hc.cons _⟩
        intro p hp hnr
        rcases List.mem_cons.1 hp with h | h
        · exfalso; rw [h] at hnr; exact hnr hkres
        · exact hb p h hnr
      | none =>
        simp only [sweepConds, hsub, hgf] at heval
        cases hrec : sweepConds rest flags idx with
        | error e =>
          rw [hrec] at heval
          exact absurd heval (by simp)
        | ok r =>
          rw [hrec] at heval
          simp only at heval
          obtain ⟨h1, h2, h3⟩ : r.1 = flags2 ∧ r.2.1 = idx2 ∧ (key, cond) :: r.2.2 = next := by
            have := Except.ok.inj heval
            exact ⟨congrArg Prod.fst this, congrArg (fun x => x.2.1) this,
              congrArg (fun x => x.2.2) this⟩
          obtain ⟨ha, hb, hc⟩ := ih _ _ _ _ _ hrec hagreer hres
          subst h1; subst h2; rw [← h3]
          refine ⟨ha, ?_, hc.cons₂ _⟩
          intro p hp hnr
          rcases List.mem_cons.1 hp with h | h
          · rw [h]; exact List.mem_cons_self _ _
          · exact List.mem_cons_of_mem _ (hb p h hnr)

/-- If some key of the remaining targets is resolvable, then some
target is ready right now: take a minimal resolvable one, all of whose
sub-conditions are already in the flags map. -/
theorem exists_ready (m : List (String × ConditionDefinition))
    (targets : List (String × ConditionDefinition)) (flags : List (String × Nat))
    (hagree : ∀ p ∈ targets, lookupCond m p.1 = some p.2)
    (hcover : ∀ k, k ∈ keysOf m → (k ∈ keysOf targets ∨ k ∈ keysOf flags)) :
    ∀ k, Resolvable m k → k ∈ keysOf targets →
      ∃ p ∈ targets, ReadyAt flags p := by
  intro k hres
  induction hres with
  | leaf k hd =>
    intro hk
    rcases mem_keysOf_exists targets k hk with ⟨d, hmem⟩
    have hdef : lookupCond m k = some d := hagree (k, d) hmem
    have : d = ⟨none⟩ := Option.some.inj (hdef.symm.trans hd)
    exact ⟨(k, d), hmem, Or.inl (by rw [this])⟩
  | comp k subs hd hsubs ih =>
    intro hk
    rcases mem_keysOf_exists targets k hk with ⟨d, hmem⟩
    have hdef : lookupCond m k = some d := hagree (k, d) hmem
    have hds : d = ⟨some subs⟩ := Option.some.inj (hdef.symm.trans hd)
    by_cases hall : ∀ s ∈ subs, s ∈ keysOf flags
    · rcases gcfsAux_total flags subs hall 0 with ⟨f, hf⟩
      exact ⟨(k, d), hmem, Or.inr ⟨subs, f, by rw [hds], hf⟩⟩
    · push_neg at hall
      rcases hall with ⟨s, hs, hsnf⟩
      have hsres : Resolvable m s := hsubs s hs
      have hsm : s ∈ keysOf m := resolvable_mem_keys m s hsres
      rcases hcover s hsm with h | h
      · exact ih s hs h
      · exact absurd h hsnf

/-- The builder loop succeeds whenever every key is resolvable and at
most 32 leaves exist, with the stated fuel sufficing, and the final
flags map satisfies the full invariant and covers exactly the keys. -/
theorem buildLoop_ok (m : List (String × ConditionDefinition))
    (hresall : ∀ k ∈ keysOf m, Resolvable m k) :
    ∀ (fuel : Nat) (targets : List (String × ConditionDefinition))
      (flags : List (String × Nat)) (idx : Nat),
    targets.length ≤ fuel →
    (keysOf targets).Nodup →
    (∀ k, k ∈ keysOf targets → k ∉ keysOf flags) →
    (∀ p ∈ targets, lookupCond m p.1 = some p.2) →
    FlagsOk m flags idx →
    idx + leafCount targets ≤ 32 →
    (∀ k, k ∈ keysOf m ↔ (k ∈ keysOf targets ∨ k ∈ keysOf flags)) →
    ∃ flagsF, buildLoop fuel targets flags idx = .ok flagsF
      ∧ FlagsOk m flagsF 32
      ∧ (∀ k, k ∈ keysOf m ↔ k ∈ keysOf flagsF) := by
  intro fuel
  induction fuel with
  | zero =>
    intro targets flags idx hfuel hnd hdisj hagree hok hroom hcover
    have htn : targets = [] := List.length_eq_zero.1 (Nat.le_zero.1 hfuel)
    subst htn
    refine ⟨flags, rfl, FlagsOk_mono m flags idx 32 hok (by omega), ?_⟩
    intro k
    rw [hcover k]
    simp [keysOf]
  | succ n ihf =>
    intro targets flags idx hfuel hnd hdisj hagree hok hroom hcover
    cases targets with
    | nil =>
      refine ⟨flags, rfl, FlagsOk_mono m flags idx 32 hok (by omega), ?_⟩
      intro k
      rw [hcover k]
      simp [keysOf]
    | cons target targetsR =>
      obtain ⟨flags2, idx2, next, heval, hsl, hcomp, hidx2, hok2, hkeys2, _, hready2⟩ :=
        sweep_ok m (target :: targetsR) flags idx hnd hdisj hagree hok hroom
      -- a ready target exists, so the sweep made progress
      have hkeyt : target.1 ∈ keysOf (target :: targetsR) := by
        simp [keysOf]
      have hkeym : target.1 ∈ keysOf m := (hcover target.1).2 (Or.inl hkeyt)
      obtain ⟨p, hpmem, hpready⟩ :=
        exists_ready m (target :: targetsR) flags hagree
          (fun k hk => (hcover k).1 hk)
          target.1 (hresall target.1 hkeym) hkeyt
      have hpnotnext : p ∉ next := hready2 p hpmem hpready
      have hlen : next.length ≠ (target :: targetsR).length := by
        intro he
        exact hpnotnext ((List.Sublist.eq_of_length hsl he) ▸ hpmem)
      have hlt : next.length < (target :: targetsR).length :=
        Nat.lt_of_le_of_ne hsl.length_le hlen
      have hndn : (keysOf next).Nodup := (hsl.map Prod.fst).nodup hnd
      have hlc0 : leafCount next = 0 := leafCount_eq_zero next hcomp
      obtain ⟨flagsF, hF, hokF, hcovF⟩ :=
        ihf next flags2 idx2
          (by have := hfuel; omega)
          hndn
          (by
            intro k hk
            have hkt : k ∈ keysOf (target :: targetsR) := (hsl.map Prod.fst).mem hk
            rw [hkeys2 k]
            rintro (h | ⟨_, h2⟩)
            · exact hdisj k hkt h
            · exact h2 hk)
          (fun p hp => hagree p (hsl.mem hp))
          hok2
          (by omega)
          (by
            intro k
            rw [hcover k]
            constructor
            · rintro (h | h)
              · by_cases hn : k ∈ keysOf next
                · exact Or.inl hn
                · exact Or.inr ((hkeys2 k).2 (Or.inr ⟨h, hn⟩))
              · exact Or.inr ((hkeys2 k).2 (Or.inl h))
            · rintro (h | h)
              · exact Or.inl ((hsl.map Prod.fst).mem h)
              · rcases (hkeys2 k).1 h with h1 | ⟨h1, _⟩
                · exact Or.inr h1
                · exact Or.inl h1)
      refine ⟨flagsF, ?_, hokF, hcovF⟩
      simp only [buildLoop, heval]
      rw [if_neg hlen]
      exact hF

/-- With an unresolvable key among the targets, the loop always ends in
an error: the key survives every sweep, so the remainder never empties
and either a sweep errors or the cycle check fires. -/
theorem buildLoop_unres (m : List (String × ConditionDefinition)) :
    ∀ (fuel : Nat) (targets : List (String × ConditionDefinition))
      (flags : List (String × Nat)) (idx : Nat) (k : String),
    (∀ p ∈ targets, lookupCond m p.1 = some p.2) →
    (∀ p ∈ flags, Resolvable m p.1) →
    k ∈ keysOf targets → ¬ Resolvable m k →
    ∃ e, buildLoop fuel targets flags idx = .error e := by
  intro fuel
  induction fuel with
  | zero =>
    intro targets flags idx k _ _ hk _
    cases targets with
    | nil => simp [keysOf] at hk
    | cons t ts => exact ⟨"Cycle detected in condition flags", rfl⟩
  | succ n ihf =>
    intro targets flags idx k hagree hres hk hnr
    cases targets with
    | nil => simp [keysOf] at hk
    | cons target targetsR =>
      cases heval : sweepConds (target :: targetsR) flags idx with
      | error e =>
        refine ⟨e, ?_⟩
        simp only [buildLoop, heval]
      | ok r =>
        obtain ⟨flags2, idx2, next⟩ := r
        obtain ⟨hres2, hstay, hsl⟩ :=
          sweep_unresolvable m (target :: targetsR) flags idx flags2 idx2 next
            heval hagree hres
        rcases mem_keysOf_exists (target :: targetsR) k hk with ⟨d, hmem⟩
        have hkn : (k, d) ∈ next := hstay (k, d) hmem hnr
        by_cases hlen : next.length = (target :: targetsR).length
        · refine ⟨"Cycle detected in condition flags", ?_⟩
          simp only [buildLoop, heval]
          rw [if_pos hlen]
        · obtain ⟨e, he⟩ :=
            ihf next flags2 idx2 k
              (fun p hp => hagree p (hsl.mem hp))
              hres2
              (List.mem_map.2 ⟨(k, d), hkn, rfl⟩)
              hnr
          refine ⟨e, ?_⟩
          simp only [buildLoop, heval]
          rw [if_neg hlen]
          exact he

/-- C6 (amended): build_condition_flags terminates on every input
mapping; it errors exactly when either more than 32 leaf conditions
would need distinct bits or some condition name is unresolvable —
i.e. its definition does not bottom out in leaves, which covers both
dependency cycles (A↔B) and references to names with no definition
(the latter also error, as the cycle message, although the original
claim promised success for them); on every successful input each leaf
gets a distinct single bit below 32 and each composite gets the strict
OR of its sub-conditions' flags. -/
theorem c6_condition_flags (m : List (String × ConditionDefinition))
    (hnd : (keysOf m).Nodup) :
    ((∃ e, build_condition_flags m = .error e) ↔
      (32 < leafCount m ∨ ∃ k ∈ keysOf m, ¬ Resolvable m k))
    ∧ (∀ flagsF, build_condition_flags m = .ok flagsF →
        (∀ k, (k, (⟨none⟩ : ConditionDefinition)) ∈ m →
          ∃ i, i < 32 ∧ lookupFlag flagsF k = some (1 <<< i))
        ∧ (∀ k1 k2, (k1, (⟨none⟩ : ConditionDefinition)) ∈ m →
            (k2, (⟨none⟩ : ConditionDefinition)) ∈ m → k1 ≠ k2 →
            lookupFlag flagsF k1 ≠ lookupFlag flagsF k2)
        ∧ (∀ k subs, (k, (⟨some subs⟩ : ConditionDefinition)) ∈ m →
            ∃ f, get_condition_flags_strict flagsF subs = some f
              ∧ lookupFlag flagsF k = some f)) := by
  have hagree0 : ∀ p ∈ m, lookupCond m p.1 = some p.2 := by
    intro p hp
    exact lookupCond_of_mem m p.1 p.2 hnd hp
  have hmax : 32 < leafCount m → ∃ e, build_condition_flags m = .error e := by
    intro h
    obtain ⟨p, rest, hm⟩ : ∃ p rest, m = p :: rest := by
      cases hm : m with
      | nil => rw [hm] at h; simp [leafCount] at h
      | cons p rest => exact ⟨p, rest, rfl⟩
    subst hm
    refine ⟨"Maximum number of conditions exceeded", ?_⟩
    unfold build_condition_flags
    simp only [List.length_cons, buildLoop,
      sweep_max_err (p :: rest) [] 0 (by omega) (by simpa using h)]
  have hunres : (∃ k ∈ keysOf m, ¬ Resolvable m k) →
      ∃ e, build_condition_flags m = .error e := by
    rintro ⟨k, hk, hnr⟩
    exact buildLoop_unres m m.length m [] 0 k hagree0
      (by intro p hp; simp at hp) hk hnr
  have hok : leafCount m ≤ 32 → (∀ k ∈ keysOf m, Resolvable m k) →
      ∃ flagsF, build_condition_flags m = .ok flagsF
        ∧ FlagsOk m flagsF 32
        ∧ (∀ k, k ∈ keysOf m ↔ k ∈ keysOf flagsF) := by
    intro h1 h2
    exact buildLoop_ok m h2 m.length m [] 0 (le_refl _) hnd
      (by intro k hk; simp [keysOf])
      hagree0 (FlagsOk_nil m 0) (by omega)
      (by intro k; simp [keysOf])
  constructor
  · constructor
    · rintro ⟨e, he⟩
      by_contra hno
      push_neg at hno
      obtain ⟨h1, h2⟩ := hno
      obtain ⟨fF, hF, _, _⟩ := hok (by omega) h2
      rw [hF] at he
      exact Except.noConfusion he
    · rintro (h | h)
      · exact hmax h
      · exact hunres h
  · intro flagsF hFok
    have h1 : ¬ 32 < leafCount m := by
      intro h
      rcases hmax h with ⟨e, he⟩
      rw [hFok] at he
      exact Except.noConfusion he
    have h2 : ∀ k ∈ keysOf m, Resolvable m k := by
      intro k hk
      by_contra hnr
      rcases hunres ⟨k, hk, hnr⟩ with ⟨e, he⟩
      rw [hFok] at he
      exact Except.noConfusion he
    obtain ⟨fF, hF, hokF, hcovF⟩ := hok (by omega) h2
    have heq : fF = flagsF := by
      rw [hF] at hFok
      exact Except.ok.inj hFok
    subst heq
    obtain ⟨hndF, _, hpack, hinj⟩ := hokF
    refine ⟨?_, ?_, ?_⟩
    · intro k hkm
      have hkf : k ∈ keysOf fF :=
        (hcovF k).1 (List.mem_map.2 ⟨(k, ⟨none⟩), hkm, rfl⟩)
      rcases lookupFlag_mem_keys_some fF k hkf with ⟨v, hv⟩
      rcases hpack (k, v) (mem_of_lookupFlag fF k v hv) with ⟨d, hd, hleaf, _⟩
      have hdd : d = ⟨none⟩ :=
        Option.some.inj (hd.symm.trans (lookupCond_of_mem m k ⟨none⟩ hnd hkm))
      rcases hleaf (by rw [hdd]) with ⟨i, hi, he⟩
      exact ⟨i, hi, by rw [hv]; exact congrArg some he⟩
    · intro k1 k2 hk1 hk2 hne heq
      have hc1 : k1 ∈ keysOf fF :=
        (hcovF k1).1 (List.mem_map.2 ⟨(k1, ⟨none⟩), hk1, rfl⟩)
      have hc2 : k2 ∈ keysOf fF :=
        (hcovF k2).1 (List.mem_map.2 ⟨(k2, ⟨none⟩), hk2, rfl⟩)
      rcases lookupFlag_mem_keys_some fF k1 hc1 with ⟨v1, hv1⟩
      rcases lookupFlag_mem_keys_some fF k2 hc2 with ⟨v2, hv2⟩
      have hvv : v1 = v2 := by
        rw [hv1, hv2] at heq
        exact Option.some.inj heq
      subst hvv
      exact hne (hinj (k1, v1) (mem_of_lookupFlag fF k1 v1 hv1)
        (k2, v1) (mem_of_lookupFlag fF k2 v1 hv2)
        ⟨⟨none⟩, lookupCond_of_mem m k1 ⟨none⟩ hnd hk1, rfl⟩
        ⟨⟨none⟩, lookupCond_of_mem m k2 ⟨none⟩ hnd hk2, rfl⟩ rfl)
    · intro k subs hkm
      have hkf : k ∈ keysOf fF :=
        (hcovF k).1 (List.mem_map.2 ⟨(k, ⟨some subs⟩), hkm, rfl⟩)
      rcases lookupFlag_mem_keys_some fF k hkf with ⟨v, hv⟩
      rcases hpack (k, v) (mem_of_lookupFlag fF k v hv) with ⟨d, hd, _, hcompv⟩
      have hdd : d = ⟨some subs⟩ :=
        Option.some.inj (hd.symm.trans (lookupCond_of_mem m k ⟨some subs⟩ hnd hkm))
      exact ⟨v, hcompv subs (by rw [hdd]), hv⟩

/-- C6 counterexample to the claim as stated: a single composite
condition referencing an undefined name has no dependency cycle among
composite conditions and needs no leaf bits at all, yet
build_condition_flags returns an error (the cycle message) instead of
succeeding. -/
theorem c6_counterexample :
    build_condition_flags [("A", ⟨some ["B"]⟩)]
      = .error "Cycle detected in condition flags"
    ∧ leafCount [("A", ⟨some ["B"]⟩)] = 0
    ∧ "A" ∉ ["B"] :=
  ⟨rfl, rfl, by decide⟩

/-- Witness for c6_condition_flags on a concrete mapping: two leaves
and one composite build successfully and the leaf "v" holds a single
bit. -/
theorem c6_witness :
    ∃ i, i < 32 ∧
      lookupFlag [("word", 3), ("adj", 2), ("v", 1)] "v" = some (1 <<< i) :=
  ((c6_condition_flags
      [("v", ⟨none⟩), ("adj", ⟨none⟩), ("word", ⟨some ["v", "adj"]⟩)]
      (by decide)).2
    [("word", 3), ("adj", 2), ("v", 1)] (by rfl)).1 "v" (by decide)
